/-
Verification of the yeth dependency-hashing core.

This file gives a shallow embedding, in Lean 4, of the core of the `yeth`
incremental-build fingerprinting tool (Rust), and proves properties of it:

* the content hasher (`hash_file`, `hash_directory`, `hash_path`,
  `should_exclude` from `src/lib/hash_directory.rs` / `src/lib/hash_file.rs`),
* the final-hash compositor (`compute_final_hash` from
  `src/lib/compute_final_hash.rs`),
* the batch topological sorter (`topological_sort` from
  `src/lib/topological_sort.rs`),
* the single-target transitive resolver (`find_app_dependencies` from
  `src/lib/find_app_dependencies.rs`),
* the hash pipeline (`calculate_hashes`, `calculate_hashes_for_app` from
  `src/lib/calculate_hashes.rs`).

Embedding conventions:
* Filesystem paths are lists of components (`List String`); the filesystem
  itself is passed explicitly as a value of type `FS` listing the regular
  files (with their byte contents) and the directories.  The model contains
  no symbolic links and all paths are absolute component lists, so
  `Path::canonicalize` is the identity on them.
* Rust `HashMap`s are embedded as association lists in one fixed iteration
  order (the Rust iteration order is arbitrary; every theorem below holds
  for each fixed order).  `HashSet`s are embedded as lists without
  duplicates.
* Machine integers are embedded as `Nat` (with explicit `% 2 ^ 32` where
  the SHA-256 arithmetic wraps) or as `Int` for the in-degree counters,
  where Rust `usize` subtraction would underflow-panic; in every reachable
  state the counters stay non-negative, where both agree.
* SHA-256 itself (the `sha2` crate) is embedded as a full executable
  implementation over byte lists (`sha256`), and `format!("{:x}", ...)`
  as `bytesToHex`.
* A Rust panic (`unwrap` on `None`) is embedded as the `none` value of an
  `Option`-wrapped result.
-/
import Mathlib

set_option maxHeartbeats 1000000
set_option maxRecDepth 100000

namespace Yeth

/-! ## Bytes, hex formatting, and SHA-256

The Rust code uses `sha2::Sha256` as a streaming hasher: `update` appends
bytes to the message, `finalize` digests the whole accumulated message.
We embed the accumulated message explicitly as a `List Nat` of bytes and
apply the one-shot `sha256` at the point of `finalize`. -/

/-- Right rotation of a 32-bit word (values taken mod `2 ^ 32`). -/
def rotr (n x : Nat) : Nat :=
  ((x >>> n) ||| (x <<< (32 - n))) % 2 ^ 32

/-- SHA-256 small sigma 0: `rotr 7 ⊕ rotr 18 ⊕ shr 3`. -/
def ssig0 (x : Nat) : Nat :=
  (rotr 7 x) ^^^ (rotr 18 x) ^^^ (x >>> 3)

/-- SHA-256 small sigma 1: `rotr 17 ⊕ rotr 19 ⊕ shr 10`. -/
def ssig1 (x : Nat) : Nat :=
  (rotr 17 x) ^^^ (rotr 19 x) ^^^ (x >>> 10)

/-- SHA-256 big sigma 0: `rotr 2 ⊕ rotr 13 ⊕ rotr 22`. -/
def bsig0 (x : Nat) : Nat :=
  (rotr 2 x) ^^^ (rotr 13 x) ^^^ (rotr 22 x)

/-- SHA-256 big sigma 1: `rotr 6 ⊕ rotr 11 ⊕ rotr 25`. -/
def bsig1 (x : Nat) : Nat :=
  (rotr 6 x) ^^^ (rotr 11 x) ^^^ (rotr 25 x)

/-- SHA-256 choice function. -/
def chF (x y z : Nat) : Nat := (x &&& y) ^^^ ((2 ^ 32 - 1 - x % 2 ^ 32) &&& z)

/-- SHA-256 majority function. -/
def majF (x y z : Nat) : Nat := (x &&& y) ^^^ (x &&& z) ^^^ (y &&& z)

/-- The 64 SHA-256 round constants (FIPS 180-4), written in decimal. -/
def sha256K : List Nat :=
  [1116352408, 1899447441, 3049323471, 3921009573,
   961987163, 1508970993, 2453635748, 2870763221,
   3624381080, 310598401, 607225278, 1426881987,
   1925078388, 2162078206, 2614888103, 3248222580,
   3835390401, 4022224774, 264347078, 604807628,
   770255983, 1249150122, 1555081692, 1996064986,
   2554220882, 2821834349, 2952996808, 3210313671,
   3336571891, 3584528711, 113926993, 338241895,
   666307205, 773529912, 1294757372, 1396182291,
   1695183700, 1986661051, 2177026350, 2456956037,
   2730485921, 2820302411, 3259730800, 3345764771,
   3516065817, 3600352804, 4094571909, 275423344,
   430227734, 506948616, 659060556, 883997877,
   958139571, 1322822218, 1537002063, 1747873779,
   1955562222, 2024104815, 2227730452, 2361852424,
   2428436474, 2756734187, 3204031479, 3329325298]

/-- The initial SHA-256 hash state (FIPS 180-4), written in decimal. -/
def sha256H0 : List Nat :=
  [1779033703, 3144134277, 1013904242, 2773480762,
   1359893119, 2600822924, 528734635, 1541459225]

/-- SHA-256 message padding: append `0x80`, zeros, and the 64-bit
big-endian bit length, reaching a multiple of 64 bytes. -/
def sha256pad (msg : List Nat) : List Nat :=
  let len := msg.length
  let z := (119 - len % 64) % 64
  let bitLen := len * 8
  msg ++ 0x80 :: List.replicate z 0 ++
    [bitLen >>> 56 % 256, bitLen >>> 48 % 256, bitLen >>> 40 % 256,
     bitLen >>> 32 % 256, bitLen >>> 24 % 256, bitLen >>> 16 % 256,
     bitLen >>> 8 % 256, bitLen % 256]

/-- Split a byte list into 64-byte blocks (structurally, collecting the
current block in reverse; the padded message length is a multiple of 64). -/
def toBlocksGo : List Nat → List Nat → List (List Nat)
  | [], cur => if cur.isEmpty then [] else [cur.reverse]
  | b :: rest, cur =>
      if cur.length = 63 then (cur.reverse ++ [b]) :: toBlocksGo rest []
      else toBlocksGo rest (b :: cur)

/-- Split a byte list into 64-byte blocks. -/
def toBlocks (l : List Nat) : List (List Nat) :=
  toBlocksGo l []

/-- Read a big-endian 32-bit word from the first four bytes of a list. -/
def word4 (l : List Nat) : Nat :=
  (l.getD 0 0) * 2 ^ 24 + (l.getD 1 0) * 2 ^ 16 + (l.getD 2 0) * 2 ^ 8 +
    l.getD 3 0

/-- The 16 message words of one 64-byte block. -/
def blockWords (b : List Nat) : List Nat :=
  (List.range 16).map fun i => word4 (b.drop (4 * i))

/-- Extend 16 message words to the 64-entry SHA-256 message schedule. -/
def sha256schedule (w : List Nat) : List Nat :=
  (List.range 48).foldl
    (fun w i =>
      w ++ [(ssig1 (w.getD (i + 14) 0) + w.getD (i + 9) 0 +
             ssig0 (w.getD (i + 1) 0) + w.getD i 0) % 2 ^ 32])
    w

/-- One SHA-256 compression round on the 8-word working state. -/
def sha256round (w : List Nat) (st : List Nat) (t : Nat) : List Nat :=
  let a := st.getD 0 0
  let b := st.getD 1 0
  let c := st.getD 2 0
  let d := st.getD 3 0
  let e := st.getD 4 0
  let f := st.getD 5 0
  let g := st.getD 6 0
  let h := st.getD 7 0
  let t1 := (h + bsig1 e + chF e f g + sha256K.getD t 0 + w.getD t 0) % 2 ^ 32
  let t2 := (bsig0 a + majF a b c) % 2 ^ 32
  [(t1 + t2) % 2 ^ 32, a, b, c, (d + t1) % 2 ^ 32, e, f, g]

/-- Compress one 64-byte block into the hash state. -/
def sha256block (st : List Nat) (b : List Nat) : List Nat :=
  let w := sha256schedule (blockWords b)
  let fin := (List.range 64).foldl (sha256round w) st
  List.zipWith (fun x y => (x + y) % 2 ^ 32) st fin

/-- Big-endian bytes of a 32-bit word. -/
def wordBytes (w : Nat) : List Nat :=
  [w >>> 24 % 256, w >>> 16 % 256, w >>> 8 % 256, w % 256]

/-- SHA-256 of a byte list, as the 32 digest bytes. -/
def sha256 (msg : List Nat) : List Nat :=
  ((toBlocks (sha256pad msg)).foldl sha256block sha256H0).flatMap wordBytes

/-- Lowercase hexadecimal digit for a value below 16. -/
def hexDigit (n : Nat) : Char :=
  if n < 10 then Char.ofNat (48 + n) else Char.ofNat (87 + n)

/-- Lowercase hexadecimal rendering of a byte list: Rust's
`format!("{:x}", hasher.finalize())`. -/
def bytesToHex (l : List Nat) : String :=
  String.mk (l.flatMap fun v => [hexDigit (v / 16 % 16), hexDigit (v % 16)])

/-- The full digest pipeline of the Rust code: SHA-256 then lowercase hex. -/
def sha256hex (msg : List Nat) : String :=
  bytesToHex (sha256 msg)

/-- UTF-8 encoding of one character (Rust `str::as_bytes`, per character). -/
def utf8Char (c : Char) : List Nat :=
  let n := c.toNat
  if n < 0x80 then [n]
  else if n < 0x800 then [0xC0 + n / 64, 0x80 + n % 64]
  else if n < 0x10000 then
    [0xE0 + n / 4096, 0x80 + n / 64 % 64, 0x80 + n % 64]
  else
    [0xF0 + n / 0x40000, 0x80 + n / 4096 % 64, 0x80 + n / 64 % 64,
     0x80 + n % 64]

/-- UTF-8 bytes of a string: Rust `str::as_bytes`. -/
def strBytes (s : String) : List Nat :=
  (s.data.map utf8Char).flatten

/-! ## Paths and the filesystem model

A path is its list of components below the root (absolute, no `.`/`..`,
no symbolic links); the filesystem is a value listing the regular files
with their contents and the directories. -/

/-- A filesystem path, as its list of components. -/
abbrev FPath := List String

/-- One regular file: its absolute path and its byte contents. -/
structure FSFile where
  path : FPath
  content : List Nat
  deriving DecidableEq

/-- A snapshot of the filesystem: the regular files (in enumeration
order, which `WalkDir` does not specify) and the directories. -/
structure FS where
  files : List FSFile
  dirs : List FPath
  deriving DecidableEq

/-- `Path::is_file`: some regular file has exactly this path. -/
def FS.isFile (fs : FS) (p : FPath) : Bool :=
  fs.files.any fun f => f.path = p

/-- `Path::is_dir`: the path is a directory. -/
def FS.isDir (fs : FS) (p : FPath) : Bool :=
  fs.dirs.any fun d => d = p

/-- `Path::exists`: the path is a regular file or a directory. -/
def FS.pathExists (fs : FS) (p : FPath) : Bool :=
  fs.isFile p || fs.isDir p

/-- `fs::read`: the contents of the (first) regular file at the path. -/
def FS.readFile (fs : FS) (p : FPath) : List Nat :=
  ((fs.files.find? fun f => f.path = p).map FSFile.content).getD []

/-- `Path::file_name`: the last path component, if any. -/
def fileName (p : FPath) : Option String :=
  p.getLast?

/-- `Path::strip_prefix`: the components after `base`, when `base` is a
component-wise prefix of `p`. -/
def stripBase (p base : FPath) : Option FPath :=
  if base.isPrefixOf p then some (p.drop base.length) else none

/-- Rust `str::starts_with` on UTF-8 strings (character-prefix test). -/
def strStartsWith (s pre : String) : Bool :=
  pre.data.isPrefixOf s.data

/-! ## Data model (`src/lib/cfg.rs`) -/

/-- Exclusion pattern (`cfg.rs`): a bare name matched anywhere in the
tree, or a resolved absolute path. -/
inductive ExcludePattern where
  | Name : String → ExcludePattern
  | AbsolutePath : FPath → ExcludePattern
  deriving DecidableEq

/-- Dependency (`cfg.rs`): a reference to another application, or a raw
filesystem path. -/
inductive Dependency where
  | App : String → Dependency
  | Path : FPath → Dependency
  deriving DecidableEq

/-- An application (`cfg.rs`): name, directory, ordered dependency list,
ordered exclusion list. -/
structure App where
  name : String
  dir : FPath
  dependencies : List Dependency
  exclude_patterns : List ExcludePattern
  deriving DecidableEq

/-- The error taxonomy (`src/lib/error.rs`; `AppNotFound` is the variant
named by `find_app_dependencies.rs`).  Variants for config parsing are
outside the embedded core and are omitted. -/
inductive YethError where
  | DependencyNotFound : String → String → YethError
  | PathDependencyNotFound : FPath → String → YethError
  | NorFileOrDirectory : FPath → YethError
  | CircularDependency : YethError
  | IncorrectOrder : YethError
  | AppNotFound : String → YethError
  deriving DecidableEq

/-- The application mapping (`HashMap<String, App>`), as an association
list in one fixed iteration order. -/
abbrev AppMap := List (String × App)

/-- `HashMap::get` on the application mapping. -/
def lookupApp (apps : AppMap) (name : String) : Option App :=
  ((apps.find? fun p => p.1 = name).map fun p => p.2)

/-- `HashMap::contains_key` on the application mapping. -/
def containsApp (apps : AppMap) (name : String) : Bool :=
  (apps.find? fun p => p.1 = name).isSome

/-! ## Content hasher (`src/lib/hash_directory.rs`, `src/lib/hash_file.rs`) -/

/-- `should_exclude` (`hash_directory.rs` lines 57–95): a candidate is
excluded if any component equals a `Name` pattern, if its canonical form
equals or lies under an `AbsolutePath` pattern, or if its path relative
to the hashed base starts with (or equals) a `Name` pattern's text.
`canonicalize().unwrap_or_else(|_| path)` is the identity in this
symlink-free model of absolute component paths. -/
def should_exclude (path base_dir : FPath) (exclude_patterns : List ExcludePattern) :
    Bool :=
  if exclude_patterns.isEmpty then false
  else
    (exclude_patterns.any fun pat =>
      match pat with
      | .Name name => path.any fun component => component = name
      | .AbsolutePath abs_path =>
          path = abs_path || abs_path.isPrefixOf path) ||
    (match stripBase path base_dir with
     | some rel_path =>
         exclude_patterns.any fun pat =>
           match pat with
           | .Name name =>
               strStartsWith (String.intercalate "/" rel_path) name ||
                 String.intercalate "/" rel_path = name
           | .AbsolutePath _ => false
     | none => false)

/-- The fixed ignore set of `hash_directory`: version-control metadata,
OS metadata, and the tool's own output artifact. -/
def ignoredName (n : String) : Bool :=
  n = ".git" || n = ".DS_Store" || n = "yeth.version"

/-- The filter of `hash_directory` (lines 14–33): keep regular files
under the root whose base name is not ignored and which are not excluded. -/
def keptFile (root : FPath) (exclude : List ExcludePattern) (f : FSFile) : Bool :=
  root.isPrefixOf f.path &&
  !(match fileName f.path with
    | some n => ignoredName n
    | none => false) &&
  !should_exclude f.path root exclude

/-- Lexicographic comparison of paths: Rust `Vec<PathBuf>::sort`
compares paths component-wise. -/
def pathLeB : FPath → FPath → Bool
  | [], _ => true
  | _ :: _, [] => false
  | a :: as_, b :: bs => if a = b then pathLeB as_ bs else decide (a < b)

/-- The path order as a relation. -/
def pathLe (a b : FPath) : Prop := pathLeB a b = true

instance : DecidableRel pathLe := fun a b => instDecidableEqBool (pathLeB a b) true

/-- `hash_directory` (lines 9–43): enumerate the regular files under
`path`, drop ignored names and excluded paths, sort the remaining paths,
concatenate the file contents in that order, and digest. -/
def hash_directory (fs : FS) (path : FPath) (exclude : List ExcludePattern) :
    String :=
  let files : List FPath :=
    ((fs.files.filter (keptFile path exclude)).map FSFile.path).insertionSort
      pathLe
  sha256hex (files.flatMap fun file => fs.readFile file)

/-- `hash_file` (`hash_file.rs`): digest of one file's bytes (the
source reads in 8192-byte chunks; chunked updates digest the same byte
stream). -/
def hash_file (fs : FS) (path : FPath) : String :=
  sha256hex (fs.readFile path)

/-- `hash_path` (lines 46–54): dispatch on filesystem type. -/
def hash_path (fs : FS) (path : FPath) (exclude : List ExcludePattern) :
    Except YethError String :=
  if fs.isFile path then .ok (hash_file fs path)
  else if fs.isDir path then .ok (hash_directory fs path exclude)
  else .error (.NorFileOrDirectory path)

/-! ## Final-hash compositor (`src/lib/compute_final_hash.rs`) -/

/-- The byte stream fed to the digest by `compute_final_hash`: the own
hash's bytes followed by each dependency hash's bytes, in order. -/
def finalHashStream (own_hash : String) (dep_hashes : List String) : List Nat :=
  dep_hashes.foldl (fun acc dep_hash => acc ++ strBytes dep_hash)
    (strBytes own_hash)

/-- `compute_final_hash` (lines 4–11): digest the own hash followed by
the dependency hashes, in order. -/
def compute_final_hash (own_hash : String) (dep_hashes : List String) : String :=
  sha256hex (finalHashStream own_hash dep_hashes)

/-! ## Graph builder / topological sorter (`src/lib/topological_sort.rs`)

The forward adjacency `HashMap<String, Vec<String>>` is embedded as a
function with default `[]` (it is only ever updated through
`entry(..).or_default().push(..)` and read through `get`); the in-degree
map is an association list in insertion order, since the source iterates
over it to seed the queue.  In-degrees are embedded as `Int`: Rust
`usize` subtraction would panic on underflow, and the invariant proofs
below show the counters never go below zero in reachable states. -/

/-- The validation/graph-building pass over one application's dependency
list (lines 13–37): an `App` dependency must name a present key (else
`DependencyNotFound`) and appends the owner to the dependency's
adjacency list; a `Path` dependency must exist (else
`PathDependencyNotFound`).  Returns the updated adjacency map and the
number of `App` dependencies (`valid_app_deps`). -/
def countDeps (fs : FS) (apps : AppMap) (app_name : String)
    (graph : String → List String) :
    List Dependency → Except YethError ((String → List String) × Int)
  | [] => .ok (graph, 0)
  | .App dep_name :: rest =>
      if containsApp apps dep_name then
        match countDeps fs apps app_name
            (fun d => if d = dep_name then graph dep_name ++ [app_name]
                      else graph d) rest with
        | .ok (g, c) => .ok (g, c + 1)
        | .error e => .error e
      else .error (.DependencyNotFound dep_name app_name)
  | .Path path :: rest =>
      if fs.pathExists path then countDeps fs apps app_name graph rest
      else .error (.PathDependencyNotFound path app_name)

/-- The first loop of `topological_sort` (lines 10–40): validate every
application, build the adjacency map, and record each application's
in-degree. -/
def buildGraph (fs : FS) (apps : AppMap) :
    List (String × App) → (String → List String) → List (String × Int) →
    Except YethError ((String → List String) × List (String × Int))
  | [], graph, in_degree => .ok (graph, in_degree)
  | (app_name, app) :: rest, graph, in_degree =>
      match countDeps fs apps app_name graph app.dependencies with
      | .error e => .error e
      | .ok (g, c) => buildGraph fs apps rest g (in_degree ++ [(app_name, c)])

/-- Decrement the in-degree entry of one neighbor (`*deg -= 1`),
reporting whether the new value is zero (`if *deg == 0`).  A missing
entry would be a panic in Rust (`get_mut(..).unwrap()`); it is
unreachable from `topological_sort`, and the model leaves the list
unchanged and reports no hit. -/
def decOne : List (String × Int) → String → List (String × Int) × Bool
  | [], _ => ([], false)
  | (k, v) :: rest, n =>
      if k = n then ((k, v - 1) :: rest, v - 1 = 0)
      else
        let r := decOne rest n
        ((k, v) :: r.1, r.2)

/-- The inner loop over one popped node's neighbors (lines 53–58):
decrement each neighbor in order and collect, in order, those whose
in-degree reaches zero (they are pushed onto the queue). -/
def stepNeighbors (in_degree : List (String × Int)) :
    List String → List (String × Int) × List String
  | [] => (in_degree, [])
  | n :: ns =>
      let r := decOne in_degree n
      let s := stepNeighbors r.1 ns
      (s.1, if r.2 then n :: s.2 else s.2)

/-- `(· .2.toNat)`-mass of an in-degree list, the termination measure of
Kahn's loop. -/
def degMass (in_degree : List (String × Int)) : Nat :=
  (in_degree.map fun p => p.2.toNat).sum

theorem decOne_mass (l : List (String × Int)) (n : String) :
    degMass (decOne l n).1 + (if (decOne l n).2 then 1 else 0) ≤ degMass l := by
  induction l with
  | nil => simp [decOne, degMass]
  | cons p rest ih =>
      obtain ⟨k, v⟩ := p
      by_cases hk : k = n
      · simp only [decOne, if_pos hk, degMass, List.map_cons, List.sum_cons]
        by_cases hv : v - 1 = 0
        · simp only [if_pos hv, decide_eq_true_eq]
          simp only [hv]
          have : v.toNat ≥ 1 ∨ v.toNat = 0 := by omega
          rcases this with h | h <;> simp <;> omega
        · simp only [if_neg hv, decide_eq_true_eq]
          simp only [degMass, List.map_cons, List.sum_cons] at *
          have : (v - 1).toNat ≤ v.toNat := by omega
          omega
      · simp only [decOne, if_neg hk, degMass, List.map_cons, List.sum_cons]
        simp only [degMass] at ih
        split
        · simp_all
          omega
        · simp_all

theorem stepNeighbors_mass (in_degree : List (String × Int)) (ns : List String) :
    degMass (stepNeighbors in_degree ns).1 +
      (stepNeighbors in_degree ns).2.length ≤ degMass in_degree := by
  induction ns generalizing in_degree with
  | nil => simp [stepNeighbors]
  | cons n ns ih =>
      have h1 := decOne_mass in_degree n
      have h2 := ih (decOne in_degree n).1
      simp only [stepNeighbors]
      cases hE : (decOne in_degree n).2 with
      | false =>
          simp only [hE] at h1
          simp [hE]
          omega
      | true =>
          simp only [hE, if_true, List.length_cons] at h1 ⊢
          omega

/-- Kahn's main loop (lines 49–61): pop the queue front, record the
node, decrement its neighbors' in-degrees, and push the ones reaching
zero onto the back of the queue. -/
def kahnLoop (graph : String → List String) :
    List String → List (String × Int) → List String
  | [], _ => []
  | app :: queue, in_degree =>
      let r := stepNeighbors in_degree (graph app)
      app :: kahnLoop graph (queue ++ r.2) r.1
termination_by queue in_degree => queue.length + degMass in_degree
decreasing_by
  have := stepNeighbors_mass in_degree (graph app)
  simp only [List.length_append, List.length_cons]
  omega

/-- `topological_sort` (lines 6–68): validate and build the graph, seed
the queue with the zero-in-degree applications, run Kahn's loop, and
fail with `CircularDependency` when some application was never reached. -/
def topological_sort (fs : FS) (apps : AppMap) :
    Except YethError (List String) :=
  match buildGraph fs apps apps (fun _ => []) [] with
  | .error e => .error e
  | .ok (graph, in_degree) =>
      let queue := (in_degree.filter fun p => p.2 = 0).map fun p => p.1
      let topo_order := kahnLoop graph queue in_degree
      if topo_order.length ≠ apps.length then .error .CircularDependency
      else .ok topo_order

/-! ## Transitive resolver (`src/lib/find_app_dependencies.rs`)

The recursion of `dfs` is embedded with explicit fuel; the wrapper
supplies `apps.length + 1`, which the adequacy lemmas below show is
never exhausted (each level of nesting adds one distinct mapping key to
`processing`). -/

/-- The mutable traversal state of `dfs`: the `visited` set, the
`processing` (on-stack) set, and the accumulated post-order `result`. -/
structure DfsState where
  visited : List String
  processing : List String
  result : List String
  deriving DecidableEq

/-- `dfs` (lines 18–56): skip nodes on the stack (silent cycle cut) and
visited nodes; otherwise push onto the stack, fold over the dependency
list recursing into `App` dependencies in order (`Path` dependencies
terminate their branch; a missing mapping entry recurses into nothing),
then pop the stack, mark visited, and append to the result. -/
def dfsGo (apps : AppMap) : Nat → String → DfsState → DfsState
  | 0, _, st => st
  | fuel + 1, current, st =>
      if st.processing.contains current then st
      else if st.visited.contains current then st
      else
        let st1 : DfsState :=
          { st with processing := current :: st.processing }
        let st2 :=
          match lookupApp apps current with
          | some app =>
              app.dependencies.foldl
                (fun acc dep =>
                  match dep with
                  | Dependency.App dep_name => dfsGo apps fuel dep_name acc
                  | Dependency.Path _ => acc) st1
          | none => st1
        { visited := current :: st2.visited,
          processing := st2.processing.erase current,
          result := st2.result ++ [current] }

/-- `find_app_dependencies` (lines 6–62): fail with `AppNotFound` when
the target is not a mapping key, else run the depth-first traversal from
the target on empty state. -/
def find_app_dependencies (app_name : String) (apps : AppMap) :
    Except YethError (List String) :=
  if containsApp apps app_name then
    .ok (dfsGo apps (apps.length + 1) app_name ⟨[], [], []⟩).result
  else .error (.AppNotFound app_name)

/-! ## Hash pipeline (`src/lib/calculate_hashes.rs`)

`calculate_hashes` looks each supplied name up with an unchecked
`unwrap`; the panic is embedded as the `none` result of the
`Option`-wrapped return type. -/

/-- `HashMap::get` on the running name → final-hash map. -/
def lookupHash (hashes : List (String × String)) (name : String) :
    Option String :=
  (hashes.find? fun p => p.1 = name).map fun p => p.2

/-- The value of `hash_path` when it succeeds (and `""` on the
unreachable error branch); used to state the success characterization
of the dependency loop. -/
def hashPathD (fs : FS) (path : FPath) (exclude : List ExcludePattern) :
    String :=
  match hash_path fs path exclude with
  | .ok h => h
  | .error _ => ""

/-- The inner dependency loop of `calculate_hashes` (lines 20–32): an
`App` dependency contributes the already-computed hash of that name
(else `IncorrectOrder`); a `Path` dependency contributes a fresh
`hash_path` under the owner's exclusions. -/
def collectDepHashes (fs : FS) (app : App) (hashes : List (String × String)) :
    List Dependency → Except YethError (List String)
  | [] => .ok []
  | .App dep_name :: rest =>
      match lookupHash hashes dep_name with
      | none => .error .IncorrectOrder
      | some dep_hash =>
          match collectDepHashes fs app hashes rest with
          | .ok hs => .ok (dep_hash :: hs)
          | .error e => .error e
  | .Path path :: rest =>
      match hash_path fs path app.exclude_patterns with
      | .ok path_hash =>
          match collectDepHashes fs app hashes rest with
          | .ok hs => .ok (path_hash :: hs)
          | .error e => .error e
      | .error e => .error e

/-- `HashMap::insert` on the running hash map: replace the entry if the
key is present, else append. -/
def insertHash (hashes : List (String × String)) (name hash : String) :
    List (String × String) :=
  if (hashes.find? fun p => p.1 = name).isSome then
    hashes.map fun p => if p.1 = name then (name, hash) else p
  else hashes ++ [(name, hash)]

/-- The main loop of `calculate_hashes` (lines 13–38), processing the
supplied order left to right.  `none` is the Rust panic on
`apps.get(&app_name).unwrap()`. -/
def calcLoop (fs : FS) (apps : AppMap) (hashes : List (String × String)) :
    List String → Option (Except YethError (List (String × String)))
  | [] => some (.ok hashes)
  | app_name :: rest =>
      match lookupApp apps app_name with
      | none => none
      | some app =>
          let own_hash := hash_directory fs app.dir app.exclude_patterns
          match collectDepHashes fs app hashes app.dependencies with
          | .error e => some (.error e)
          | .ok dep_hashes =>
              calcLoop fs apps
                (insertHash hashes app_name
                  (compute_final_hash own_hash dep_hashes)) rest

/-- `calculate_hashes` (lines 9–40). -/
def calculate_hashes (fs : FS) (ordered_apps : List String) (apps : AppMap) :
    Option (Except YethError (List (String × String))) :=
  calcLoop fs apps [] ordered_apps

/-- `calculate_hashes_for_app` (lines 43–52): resolve the target's
closure, then hash it in that order. -/
def calculate_hashes_for_app (fs : FS) (app_name : String) (apps : AppMap) :
    Option (Except YethError (List (String × String))) :=
  match find_app_dependencies app_name apps with
  | .error e => some (.error e)
  | .ok dependency_order => calculate_hashes fs dependency_order apps

/-! ## Specification-side definitions

These definitions follow the wording of the specification (not the
source); the refinement theorems below compare the source-derived
functions against them. -/

/-- A string of single-byte (ASCII) characters, as every SHA-256 hex
digest is. -/
def asciiStr (s : String) : Prop :=
  ∀ c ∈ s.data, c.toNat < 128

instance (s : String) : Decidable (asciiStr s) := by
  unfold asciiStr; infer_instance

/-- The filesystem invariant that no two distinct regular files share a
path. -/
def nodupPaths (fs : FS) : Prop :=
  (fs.files.map FSFile.path).Nodup

instance (fs : FS) : Decidable (nodupPaths fs) := by
  unfold nodupPaths; infer_instance

/-- Spec wording: a file is retained iff it is a regular file under the
directory, its base name is not in the fixed ignore set, and it is not
matched by the exclusion patterns. -/
def retainedSpec (root : FPath) (exclude : List ExcludePattern) (f : FSFile) :
    Bool :=
  root.isPrefixOf f.path &&
  !(f.path.getLast?.elim false ignoredName) &&
  !should_exclude f.path root exclude

/-- Spec wording of `hashDirectory`: the SHA-256 digest, in lowercase
hex, of the concatenated bytes of exactly the retained regular files
under the directory, taken in sorted path order. -/
def hashDirectorySpec (fs : FS) (root : FPath) (exclude : List ExcludePattern) :
    String :=
  let retained := fs.files.filter (retainedSpec root exclude)
  let sorted := retained.insertionSort fun f g => pathLe f.path g.path
  sha256hex (sorted.flatMap FSFile.content)

/-- Spec wording of exclusion clause (a): some path component of the
candidate equals a `Name` pattern's text exactly. -/
def excludeClauseA (path : FPath) (pats : List ExcludePattern) : Prop :=
  ∃ n, ExcludePattern.Name n ∈ pats ∧ n ∈ path

/-- Spec wording of exclusion clause (b): the canonicalized candidate
(the candidate itself in this symlink-free model) equals an
`AbsolutePath` pattern or is nested under it. -/
def excludeClauseB (path : FPath) (pats : List ExcludePattern) : Prop :=
  ∃ ap, ExcludePattern.AbsolutePath ap ∈ pats ∧
    (path = ap ∨ ap.isPrefixOf path)

/-- Spec wording of exclusion clause (c): the candidate's path relative
to the hashed base directory starts with, or equals, a `Name` pattern's
text. -/
def excludeClauseC (path base : FPath) (pats : List ExcludePattern) : Prop :=
  ∃ n rel, ExcludePattern.Name n ∈ pats ∧ stripBase path base = some rel ∧
    (strStartsWith (String.intercalate "/" rel) n = true ∨
      String.intercalate "/" rel = n)

/-- The `AppRef` edge relation of the mapping: `dependsOn apps a b`
holds when application `a` declares an `AppRef` dependency on `b`. -/
def dependsOn (apps : AppMap) (a b : String) : Prop :=
  ∃ app, (a, app) ∈ apps ∧ Dependency.App b ∈ app.dependencies

/-- The `AppRef` edge relation through the mapping lookup (the form the
single-target resolver traverses); it agrees with `dependsOn` when the
mapping's keys are distinct, as a `HashMap`'s always are. -/
def dependsOnL (apps : AppMap) (a b : String) : Prop :=
  ∃ app, lookupApp apps a = some app ∧ Dependency.App b ∈ app.dependencies

/-- The resolver's state invariant: the accumulated result has no
duplicates, the visited set is exactly the set of result entries, and no
on-stack node has completed. -/
def DfsInv (st : DfsState) : Prop :=
  st.result.Nodup ∧ (∀ x, x ∈ st.visited ↔ x ∈ st.result) ∧
  ∀ x ∈ st.processing, x ∉ st.result

/-- Dependency-first ordering of a name list: every entry's `AppRef`
dependencies occur strictly before it. -/
def OrderedL (apps : AppMap) (l : List String) : Prop :=
  ∀ p a s, l = p ++ a :: s → ∀ b, dependsOnL apps a b → b ∈ p

/-- The number of mapping keys not currently on the traversal stack:
the quantity the resolver's recursion depth is bounded by. -/
def remKeys (apps : AppMap) (proc : List String) : Nat :=
  ((apps.map Prod.fst).dedup.filter fun k => !proc.contains k).length

/-- Acyclicity of the `AppRef` edge relation. -/
def acyclicDeps (apps : AppMap) : Prop :=
  ∀ n, ¬ Relation.TransGen (dependsOn apps) n n

/-- Validity of one dependency's `AppRef` part: an `AppRef` must name a
mapping key. -/
def depAppValid (apps : AppMap) : Dependency → Prop
  | Dependency.App d => containsApp apps d = true
  | Dependency.Path _ => True

instance (apps : AppMap) : (dep : Dependency) → Decidable (depAppValid apps dep)
  | Dependency.App d => instDecidableEqBool (containsApp apps d) true
  | Dependency.Path _ => inferInstanceAs (Decidable True)

/-- Validity of one dependency's `PathRef` part: a `PathRef` target must
exist. -/
def depPathValid (fs : FS) : Dependency → Prop
  | Dependency.App _ => True
  | Dependency.Path p => fs.pathExists p = true

instance (fs : FS) : (dep : Dependency) → Decidable (depPathValid fs dep)
  | Dependency.App _ => inferInstanceAs (Decidable True)
  | Dependency.Path p => instDecidableEqBool (fs.pathExists p) true

/-- Validity of all `AppRef` dependencies: each names a mapping key. -/
def appRefsValid (apps : AppMap) : Prop :=
  ∀ p ∈ apps, ∀ dep ∈ p.2.dependencies, depAppValid apps dep

instance (apps : AppMap) : Decidable (appRefsValid apps) := by
  unfold appRefsValid; infer_instance

/-- Validity of all `PathRef` dependencies: each target exists. -/
def pathRefsValid (fs : FS) (apps : AppMap) : Prop :=
  ∀ p ∈ apps, ∀ dep ∈ p.2.dependencies, depPathValid fs dep

instance (fs : FS) (apps : AppMap) : Decidable (pathRefsValid fs apps) := by
  unfold pathRefsValid; infer_instance

/-- The number of `AppRef` dependencies in a dependency list — the
in-degree contribution `valid_app_deps` counts. -/
def appRefCount (deps : List Dependency) : Nat :=
  (deps.filter fun dep =>
    match dep with
    | Dependency.App _ => true
    | Dependency.Path _ => false).length

/-- The dependents list one application contributes to the adjacency
entry of `x`: one copy of the owner's name per `AppRef` occurrence of
`x` in its dependency list, in declaration order. -/
def appTargets (app_name : String) (deps : List Dependency) (x : String) :
    List String :=
  deps.filterMap fun dep =>
    match dep with
    | Dependency.App d => if d = x then some app_name else none
    | Dependency.Path _ => none

/-- The full adjacency entry of `x`: contributions of all applications
in iteration order. -/
def allTargets (rest : List (String × App)) (x : String) : List String :=
  rest.flatMap fun p => appTargets p.1 p.2.dependencies x

/-- The in-degree list the first loop of `topological_sort` builds: one
entry per application, counting only its `AppRef` dependencies. -/
def degList (rest : List (String × App)) : List (String × Int) :=
  rest.map fun p => (p.1, (appRefCount p.2.dependencies : Int))

/-! ### Concrete witness inputs -/

/-- The empty filesystem. -/
def emptyFS : FS := ⟨[], []⟩

/-- Witness application `A`: no dependencies. -/
def appA : App := ⟨"A", ["t", "A"], [], []⟩

/-- Witness application `B`: one `AppRef` dependency on `A`. -/
def appB : App := ⟨"B", ["t", "B"], [Dependency.App "A"], []⟩

/-- The two-application witness mapping. -/
def appsAB : AppMap := [("A", appA), ("B", appB)]

/-- Witness application with a dangling `AppRef`: its dependency
`"ghost"` is not a key of any mapping it is placed in. -/
def appGhost : App := ⟨"A", ["t", "A"], [Dependency.App "ghost"], []⟩

/-- The one-application mapping with a dangling `AppRef`. -/
def appsGhost : AppMap := [("A", appGhost)]

/-- Witness application with a missing `PathRef` target. -/
def appPathBad : App := ⟨"P", ["t", "P"], [Dependency.Path ["nope"]], []⟩

/-- The one-application mapping with a missing `PathRef`. -/
def appsPathBad : AppMap := [("P", appPathBad)]

/-! ## Byte-string lemmas -/

theorem strBytes_append (a b : String) :
    strBytes (a ++ b) = strBytes a ++ strBytes b := by
  unfold strBytes
  rw [String.data_append, List.map_append, List.flatten_append]

theorem utf8Char_ascii {c : Char} (h : c.toNat < 128) :
    utf8Char c = [c.toNat] := by
  unfold utf8Char
  rw [if_pos h]

theorem utf8list_ascii {l : List Char} (h : ∀ c ∈ l, c.toNat < 128) :
    (l.map utf8Char).flatten = l.map Char.toNat := by
  induction l with
  | nil => rfl
  | cons c cs ih =>
      simp only [List.map_cons, List.flatten_cons]
      rw [utf8Char_ascii (h c (by simp)), ih fun d hd => h d (by simp [hd])]
      rfl

/-- On ASCII strings, the UTF-8 encoding is one byte per character. -/
theorem strBytes_ascii {s : String} (h : asciiStr s) :
    strBytes s = s.data.map Char.toNat :=
  utf8list_ascii h

theorem charToNat_injective : Function.Injective Char.toNat := by
  intro a b h
  exact Char.ext (UInt32.ext h)

/-! ## Claim C10: `compute_final_hash` sees only the concatenation -/

theorem finalHashStream_absorb (a b : String) (rest : List String) :
    finalHashStream a (b :: rest) = finalHashStream (a ++ b) rest := by
  unfold finalHashStream
  rw [List.foldl_cons, strBytes_append]

/-- C10: `compute_final_hash` depends only on the plain concatenation of
its inputs — `compute_final_hash a (b :: rest) = compute_final_hash
(a ++ b) rest` for all strings `a`, `b` and lists `rest`; in particular
`compute_final_hash "ab" ["c"] = compute_final_hash "abc" []`. -/
theorem claim_C10 :
    (∀ (a b : String) (rest : List String),
      compute_final_hash a (b :: rest) = compute_final_hash (a ++ b) rest) ∧
    compute_final_hash "ab" ["c"] = compute_final_hash "abc" [] := by
  constructor
  · intro a b rest
    unfold compute_final_hash
    rw [finalHashStream_absorb]
  · show compute_final_hash "ab" ("c" :: []) = _
    rw [show ("abc" : String) = "ab" ++ "c" from rfl]
    unfold compute_final_hash
    rw [finalHashStream_absorb]

/-! ## Claim C3: order sensitivity of `compute_final_hash` -/

/-- C3 counterexample: the claim quantifies over *every* pair of
distinct dependency-hash strings, but for `d1 = "ab"`, `d2 = "abab"`
(distinct, of different lengths) the two concatenations are the same
byte stream, so the two final digests are equal, not different. -/
theorem claim_C3_counterexample :
    ("ab" : String) ≠ "abab" ∧
    compute_final_hash "x" ["ab", "abab"] = compute_final_hash "x" ["abab", "ab"] := by
  refine ⟨by decide, ?_⟩
  unfold compute_final_hash
  have h : finalHashStream "x" ["ab", "abab"] = finalHashStream "x" ["abab", "ab"] := by
    decide
  rw [h]

/-- C3 (amended): for every own-hash and every pair of distinct
dependency-hash strings of equal length over single-byte characters (as
actual SHA-256 hex digests are), reordering the two dependency hashes
changes the byte stream `compute_final_hash` feeds to SHA-256 (the
digests then differ unless SHA-256 itself collides on them); for
strings of unequal length even the streams can coincide. -/
theorem claim_C3_amended (own d1 d2 : String) (hne : d1 ≠ d2)
    (hlen : d1.length = d2.length) (h1 : asciiStr d1) (h2 : asciiStr d2) :
    compute_final_hash own [d1, d2] = sha256hex (finalHashStream own [d1, d2]) ∧
    compute_final_hash own [d2, d1] = sha256hex (finalHashStream own [d2, d1]) ∧
    finalHashStream own [d1, d2] ≠ finalHashStream own [d2, d1] := by
  refine ⟨rfl, rfl, fun hEq => hne ?_⟩
  unfold finalHashStream at hEq
  simp only [List.foldl_cons, List.foldl_nil, List.append_assoc] at hEq
  have hcancel := List.append_cancel_left hEq
  have hb1 : strBytes d1 = d1.data.map Char.toNat := strBytes_ascii h1
  have hb2 : strBytes d2 = d2.data.map Char.toNat := strBytes_ascii h2
  have hlen' : (strBytes d1).length = (strBytes d2).length := by
    rw [hb1, hb2, List.length_map, List.length_map]
    exact hlen
  have hfirst : strBytes d1 = strBytes d2 :=
    List.append_inj_left hcancel hlen'
  rw [hb1, hb2] at hfirst
  exact String.ext (List.map_injective_iff.mpr charToNat_injective hfirst)

/-- C3 amended claim, witnessed at `own = "x"`, `d1 = "aa"`, `d2 = "ab"`. -/
theorem claim_C3_witness :
    finalHashStream "x" ["aa", "ab"] ≠ finalHashStream "x" ["ab", "aa"] :=
  (claim_C3_amended "x" "aa" "ab" (by decide) (by decide) (by decide)
    (by decide)).2.2

/-! ## Claim C6: the exclusion-matching predicate -/

theorem should_exclude_iff (path base : FPath) (pats : List ExcludePattern) :
    should_exclude path base pats = true ↔
      excludeClauseA path pats ∨ excludeClauseB path pats ∨
        excludeClauseC path base pats := by
  unfold should_exclude
  by_cases hE : pats.isEmpty
  · have h0 : pats = [] := List.isEmpty_iff.mp hE
    subst h0
    simp [excludeClauseA, excludeClauseB, excludeClauseC]
  · rw [if_neg hE, Bool.or_eq_true]
    have hAB : (pats.any fun pat =>
        match pat with
        | .Name name => path.any fun component => component = name
        | .AbsolutePath abs_path =>
            path = abs_path || abs_path.isPrefixOf path) = true ↔
        excludeClauseA path pats ∨ excludeClauseB path pats := by
      rw [List.any_eq_true]
      constructor
      · rintro ⟨pat, hmem, hpat⟩
        cases pat with
        | Name n =>
            left
            rw [List.any_eq_true] at hpat
            obtain ⟨c, hc, he⟩ := hpat
            rw [decide_eq_true_eq] at he
            exact ⟨n, hmem, he ▸ hc⟩
        | AbsolutePath ap =>
            right
            rw [Bool.or_eq_true, decide_eq_true_eq] at hpat
            exact ⟨ap, hmem, by tauto⟩
      · rintro (⟨n, hmem, hc⟩ | ⟨ap, hmem, hap⟩)
        · exact ⟨.Name n, hmem, List.any_eq_true.mpr ⟨n, hc, by simp⟩⟩
        · refine ⟨.AbsolutePath ap, hmem, ?_⟩
          rw [Bool.or_eq_true, decide_eq_true_eq]
          tauto
    have hC : (match stripBase path base with
        | some rel_path =>
            pats.any fun pat =>
              match pat with
              | .Name name =>
                  strStartsWith (String.intercalate "/" rel_path) name ||
                    String.intercalate "/" rel_path = name
              | .AbsolutePath _ => false
        | none => false) = true ↔ excludeClauseC path base pats := by
      cases hS : stripBase path base with
      | none =>
          simp only [Bool.false_eq_true, false_iff, excludeClauseC]
          rintro ⟨n, rel, _, hS', _⟩
          rw [hS] at hS'
          cases hS'
      | some rel =>
          rw [List.any_eq_true]
          constructor
          · rintro ⟨pat, hmem, hpat⟩
            cases pat with
            | Name n =>
                rw [Bool.or_eq_true, decide_eq_true_eq] at hpat
                exact ⟨n, rel, hmem, hS, by tauto⟩
            | AbsolutePath ap => simp at hpat
          · rintro ⟨n, rel', hmem, hS', hcond⟩
            rw [hS] at hS'
            injection hS' with h
            subst h
            refine ⟨.Name n, hmem, ?_⟩
            rw [Bool.or_eq_true, decide_eq_true_eq]
            tauto
    rw [hAB, hC]
    tauto

/-- C6: `should_exclude` holds iff some path component equals a `Name`
pattern exactly, or the (canonicalized) candidate equals or is nested
under an `AbsolutePath` pattern, or the path relative to the hashed base
starts with or equals a `Name` pattern's text; consequently hashing a
directory containing `node_modules/lib.js` with pattern
`Name "node_modules"` equals hashing the same directory with that
subtree physically removed. -/
theorem claim_C6 :
    (∀ (path base : FPath) (pats : List ExcludePattern),
      should_exclude path base pats = true ↔
        excludeClauseA path pats ∨ excludeClauseB path pats ∨
          excludeClauseC path base pats) ∧
    hash_directory
        ⟨[⟨["d", "file1.txt"], [104, 105]⟩,
          ⟨["d", "node_modules", "lib.js"], [106]⟩],
         [["d"], ["d", "node_modules"]]⟩
        ["d"] [ExcludePattern.Name "node_modules"] =
      hash_directory ⟨[⟨["d", "file1.txt"], [104, 105]⟩], [["d"]]⟩ ["d"] [] :=
  ⟨should_exclude_iff, by decide⟩

/-! ## The path order is a total order -/

theorem pathLeB_total (a b : FPath) : pathLeB a b = true ∨ pathLeB b a = true := by
  induction a generalizing b with
  | nil => left; rfl
  | cons x xs ih =>
      cases b with
      | nil => right; rfl
      | cons y ys =>
          by_cases hxy : x = y
          · subst hxy
            simp only [pathLeB, if_pos rfl]
            exact ih ys
          · simp only [pathLeB, if_neg hxy, if_neg (Ne.symm hxy)]
            rcases lt_or_gt_of_ne hxy with h | h
            · left; exact decide_eq_true h
            · right; exact decide_eq_true h

theorem pathLeB_trans (a b c : FPath) (h1 : pathLeB a b = true)
    (h2 : pathLeB b c = true) : pathLeB a c = true := by
  induction a generalizing b c with
  | nil => rfl
  | cons x xs ih =>
      cases b with
      | nil => exact absurd h1 (by simp [pathLeB])
      | cons y ys =>
          cases c with
          | nil => exact absurd h2 (by simp [pathLeB])
          | cons z zs =>
              by_cases hxy : x = y <;> by_cases hyz : y = z
              · subst hxy; subst hyz
                simp only [pathLeB, if_pos rfl] at h1 h2 ⊢
                exact ih ys zs h1 h2
              · subst hxy
                simp only [pathLeB, if_pos rfl, if_neg hyz] at h1 h2 ⊢
                exact h2
              · subst hyz
                simp only [pathLeB, if_neg hxy, if_pos rfl] at h1 h2 ⊢
                exact h1
              · simp only [pathLeB, if_neg hxy, if_neg hyz] at h1 h2
                have hxz : x < z := lt_trans (of_decide_eq_true h1) (of_decide_eq_true h2)
                simp only [pathLeB, if_neg (ne_of_lt hxz)]
                exact decide_eq_true hxz

theorem pathLeB_antisymm (a b : FPath) (h1 : pathLeB a b = true)
    (h2 : pathLeB b a = true) : a = b := by
  induction a generalizing b with
  | nil =>
      cases b with
      | nil => rfl
      | cons y ys => exact absurd h2 (by simp [pathLeB])
  | cons x xs ih =>
      cases b with
      | nil => exact absurd h1 (by simp [pathLeB])
      | cons y ys =>
          by_cases hxy : x = y
          · subst hxy
            simp only [pathLeB, if_pos rfl] at h1 h2
            rw [ih ys h1 h2]
          · simp only [pathLeB, if_neg hxy, if_neg (Ne.symm hxy)] at h1 h2
            exact absurd (of_decide_eq_true h2) (lt_asymm (of_decide_eq_true h1))

instance : IsTotal FPath pathLe := ⟨pathLeB_total⟩

instance : IsTrans FPath pathLe := ⟨pathLeB_trans⟩

instance : IsAntisymm FPath pathLe := ⟨pathLeB_antisymm⟩

/-- The file order used by `hashDirectorySpec`. -/
def fileLe (f g : FSFile) : Prop := pathLe f.path g.path

instance : DecidableRel fileLe := fun f g =>
  instDecidableEqBool (pathLeB f.path g.path) true

/-! ## Shape of the digest string -/

theorem sha256round_length (w st : List Nat) (t : Nat) :
    (sha256round w st t).length = 8 := rfl

theorem foldl_sha256round_length (w : List Nat) (ts : List Nat) (st : List Nat)
    (h : st.length = 8) : (ts.foldl (sha256round w) st).length = 8 := by
  induction ts generalizing st with
  | nil => exact h
  | cons t ts ih => exact ih _ (sha256round_length w st t)

theorem sha256block_length (st b : List Nat) (h : st.length = 8) :
    (sha256block st b).length = 8 := by
  unfold sha256block
  rw [List.length_zipWith,
    foldl_sha256round_length _ _ _ h, h]
  rfl

theorem foldl_sha256block_length (bs : List (List Nat)) (st : List Nat)
    (h : st.length = 8) : (bs.foldl sha256block st).length = 8 := by
  induction bs generalizing st with
  | nil => exact h
  | cons b bs ih => exact ih _ (sha256block_length st b h)

theorem flatMap_wordBytes_length (l : List Nat) :
    (l.flatMap wordBytes).length = 4 * l.length := by
  induction l with
  | nil => rfl
  | cons x xs ih =>
      simp only [List.flatMap_cons, List.length_append, ih, List.length_cons]
      simp [wordBytes]
      ring

theorem sha256_length (msg : List Nat) : (sha256 msg).length = 32 := by
  unfold sha256
  rw [flatMap_wordBytes_length,
    foldl_sha256block_length (toBlocks (sha256pad msg)) sha256H0 rfl]

theorem bytesToHex_length (l : List Nat) :
    (bytesToHex l).length = 2 * l.length := by
  unfold bytesToHex
  show (l.flatMap fun v => [hexDigit (v / 16 % 16), hexDigit (v % 16)]).length =
    2 * l.length
  induction l with
  | nil => rfl
  | cons x xs ih =>
      simp only [List.flatMap_cons, List.length_append, ih, List.length_cons]
      simp
      ring

theorem hexDigit_mem {n : Nat} (h : n < 16) :
    hexDigit n ∈ ("0123456789abcdef" : String).data := by
  interval_cases n <;> decide

theorem bytesToHex_chars (l : List Nat) :
    ∀ c ∈ (bytesToHex l).data, c ∈ ("0123456789abcdef" : String).data := by
  intro c hc
  unfold bytesToHex at hc
  rw [show (String.mk (l.flatMap fun v =>
      [hexDigit (v / 16 % 16), hexDigit (v % 16)])).data =
      l.flatMap fun v => [hexDigit (v / 16 % 16), hexDigit (v % 16)] from rfl,
    List.mem_flatMap] at hc
  obtain ⟨v, _, hcv⟩ := hc
  simp only [List.mem_cons, List.not_mem_nil, or_false] at hcv
  rcases hcv with h | h
  · rw [h]; exact hexDigit_mem (Nat.mod_lt _ (by norm_num))
  · rw [h]; exact hexDigit_mem (Nat.mod_lt _ (by norm_num))

theorem sha256hex_length (msg : List Nat) : (sha256hex msg).length = 64 := by
  unfold sha256hex
  rw [bytesToHex_length, sha256_length]

/-! ## Reading files back by path -/

theorem readFile_of_mem {fs : FS} (hnd : nodupPaths fs) {f : FSFile}
    (hf : f ∈ fs.files) : fs.readFile f.path = f.content := by
  unfold FS.readFile
  unfold nodupPaths at hnd
  obtain ⟨files, dirs⟩ := fs
  simp only at hnd hf ⊢
  induction files with
  | nil => cases hf
  | cons g rest ih =>
      rw [List.map_cons, List.nodup_cons] at hnd
      rw [List.find?_cons]
      by_cases hg : g.path = f.path
      · have hgf : g = f := by
          rcases List.mem_cons.mp hf with h | h
          · exact h.symm
          · exact absurd (hg ▸ List.mem_map_of_mem FSFile.path h) hnd.1
        subst hgf
        simp
      · have hf' : f ∈ rest := by
          rcases List.mem_cons.mp hf with h | h
          · exact absurd (h ▸ rfl) hg
          · exact h
        rw [decide_eq_false hg]
        exact ih hnd.2 hf'

theorem readFile_cons_of_ne {f : FSFile} {files : List FSFile}
    {dirs : List FPath} {p : FPath} (h : f.path ≠ p) :
    FS.readFile ⟨f :: files, dirs⟩ p = FS.readFile ⟨files, dirs⟩ p := by
  unfold FS.readFile
  rw [List.find?_cons, decide_eq_false h]

/-! ## Claim C2: `hash_directory` -/

theorem keptFile_eq_retainedSpec (root : FPath) (pats : List ExcludePattern)
    (f : FSFile) : keptFile root pats f = retainedSpec root pats f := by
  unfold keptFile retainedSpec fileName
  cases f.path.getLast? <;> rfl

theorem sha256hex_chars (msg : List Nat) :
    ∀ c ∈ (sha256hex msg).data, c ∈ ("0123456789abcdef" : String).data :=
  bytesToHex_chars (sha256 msg)

theorem hash_directory_eq_spec (fs : FS) (root : FPath)
    (pats : List ExcludePattern) (hnd : nodupPaths fs) :
    hash_directory fs root pats = hashDirectorySpec fs root pats := by
  simp only [hash_directory, hashDirectorySpec]
  rw [show fs.files.filter (retainedSpec root pats) =
      fs.files.filter (keptFile root pats) from
    (List.filter_congr fun x _ => keptFile_eq_retainedSpec root pats x).symm]
  rw [← List.map_insertionSort (fun f g => pathLe f.path g.path) pathLe
    FSFile.path (fs.files.filter (keptFile root pats))
    (fun a _ b _ => Iff.rfl)]
  congr 1
  rw [List.flatMap_def, List.flatMap_def, List.map_map]
  congr 1
  apply List.map_congr_left
  intro f hf
  have hmem : f ∈ fs.files :=
    (List.mem_filter.mp ((List.mem_insertionSort _).mp hf)).1
  exact readFile_of_mem hnd hmem

theorem hash_directory_perm (fs fs' : FS) (root : FPath)
    (pats : List ExcludePattern) (hnd : nodupPaths fs)
    (hp : fs.files.Perm fs'.files) :
    hash_directory fs root pats = hash_directory fs' root pats := by
  have hnd' : nodupPaths fs' := (hp.map FSFile.path).nodup_iff.mp hnd
  simp only [hash_directory]
  have hperm : ((fs.files.filter (keptFile root pats)).map FSFile.path).Perm
      ((fs'.files.filter (keptFile root pats)).map FSFile.path) :=
    (hp.filter _).map _
  have hsorted :
      ((fs.files.filter (keptFile root pats)).map FSFile.path).insertionSort
        pathLe =
      ((fs'.files.filter (keptFile root pats)).map FSFile.path).insertionSort
        pathLe :=
    List.eq_of_perm_of_sorted
      (((List.perm_insertionSort _ _).trans hperm).trans
        (List.perm_insertionSort _ _).symm)
      (List.sorted_insertionSort _ _) (List.sorted_insertionSort _ _)
  rw [hsorted]
  congr 1
  rw [List.flatMap_def, List.flatMap_def]
  congr 1
  apply List.map_congr_left
  intro p hp'
  have hp'' := (List.mem_insertionSort _).mp hp'
  obtain ⟨f, hfmem, hfp⟩ := List.mem_map.mp hp''
  have hf' : f ∈ fs'.files := (List.mem_filter.mp hfmem).1
  have hf : f ∈ fs.files := hp.symm.subset hf'
  rw [← hfp, readFile_of_mem hnd hf, readFile_of_mem hnd' hf']

theorem hash_directory_cons_excluded (fs : FS) (root : FPath)
    (pats : List ExcludePattern) (f : FSFile)
    (hnd : nodupPaths ⟨f :: fs.files, fs.dirs⟩)
    (hse : should_exclude f.path root pats = true) :
    hash_directory ⟨f :: fs.files, fs.dirs⟩ root pats =
      hash_directory fs root pats := by
  have hkept : keptFile root pats f = false := by
    unfold keptFile
    rw [hse]
    simp
  have hfpath : f.path ∉ fs.files.map FSFile.path := by
    unfold nodupPaths at hnd
    exact (List.nodup_cons.mp hnd).1
  simp only [hash_directory]
  rw [List.filter_cons_of_neg (by rw [hkept]; exact Bool.false_ne_true)]
  congr 1
  rw [List.flatMap_def, List.flatMap_def]
  congr 1
  apply List.map_congr_left
  intro p hp'
  have hp'' := (List.mem_insertionSort _).mp hp'
  obtain ⟨g, hgmem, hgp⟩ := List.mem_map.mp hp''
  have hg : g ∈ fs.files := (List.mem_filter.mp hgmem).1
  have hne : f.path ≠ p := fun hEq => hfpath
    (hEq ▸ hgp ▸ List.mem_map_of_mem FSFile.path hg)
  exact readFile_cons_of_ne hne

/-- C2: `hash_directory` returns the SHA-256 digest, as 64 lowercase hex
characters, of the concatenated bytes of exactly the retained regular
files under the directory in sorted path order (a file is retained iff
its base name is not in the fixed ignore set and it is not matched by
the exclusion patterns); the digest is independent of filesystem
enumeration order and unchanged by adding or removing excluded files. -/
theorem claim_C2 :
    (∀ (fs : FS) (root : FPath) (pats : List ExcludePattern), nodupPaths fs →
      hash_directory fs root pats = hashDirectorySpec fs root pats) ∧
    (∀ (fs : FS) (root : FPath) (pats : List ExcludePattern),
      (hash_directory fs root pats).length = 64 ∧
      ∀ c ∈ (hash_directory fs root pats).data,
        c ∈ ("0123456789abcdef" : String).data) ∧
    (∀ (fs fs' : FS) (root : FPath) (pats : List ExcludePattern),
      nodupPaths fs → fs.files.Perm fs'.files →
      hash_directory fs root pats = hash_directory fs' root pats) ∧
    (∀ (fs : FS) (root : FPath) (pats : List ExcludePattern) (f : FSFile),
      nodupPaths ⟨f :: fs.files, fs.dirs⟩ →
      should_exclude f.path root pats = true →
      hash_directory ⟨f :: fs.files, fs.dirs⟩ root pats =
        hash_directory fs root pats) := by
  refine ⟨hash_directory_eq_spec, fun fs root pats => ⟨?_, ?_⟩,
    hash_directory_perm, hash_directory_cons_excluded⟩
  · exact sha256hex_length _
  · exact sha256hex_chars _

/-- C2, witnessed on concrete directories: refinement at a two-file
directory, 64-character shape, invariance under enumeration reordering,
and invariance under adding an excluded file. -/
theorem claim_C2_witness :
    (hash_directory ⟨[⟨["r", "b.txt"], [2]⟩, ⟨["r", "a.txt"], [1]⟩], [["r"]]⟩
        ["r"] [] =
      hashDirectorySpec ⟨[⟨["r", "b.txt"], [2]⟩, ⟨["r", "a.txt"], [1]⟩],
        [["r"]]⟩ ["r"] []) ∧
    (hash_directory ⟨[⟨["r", "a.txt"], [1]⟩], [["r"]]⟩ ["r"] []).length = 64 ∧
    (hash_directory ⟨[⟨["r", "b.txt"], [2]⟩, ⟨["r", "a.txt"], [1]⟩], [["r"]]⟩
        ["r"] [] =
      hash_directory ⟨[⟨["r", "a.txt"], [1]⟩, ⟨["r", "b.txt"], [2]⟩], [["r"]]⟩
        ["r"] []) ∧
    (hash_directory ⟨⟨["r", "node_modules", "x.js"], [9]⟩ ::
        [⟨["r", "a.txt"], [1]⟩], [["r"]]⟩ ["r"]
        [ExcludePattern.Name "node_modules"] =
      hash_directory ⟨[⟨["r", "a.txt"], [1]⟩], [["r"]]⟩ ["r"]
        [ExcludePattern.Name "node_modules"]) :=
  ⟨claim_C2.1 _ _ _ (by decide),
   (claim_C2.2.1 _ _ _).1,
   claim_C2.2.2.1 _ _ _ _ (by decide) (List.Perm.swap _ _ _),
   claim_C2.2.2.2 (FS.mk [⟨["r", "a.txt"], [1]⟩] [["r"]]) ["r"]
     [ExcludePattern.Name "node_modules"] ⟨["r", "node_modules", "x.js"], [9]⟩
     (by decide) (by decide)⟩

/-! ## Claim C9: the unchecked lookup in `calculate_hashes` -/

theorem lookupApp_isSome_of_contains {apps : AppMap} {name : String}
    (h : containsApp apps name = true) : (lookupApp apps name).isSome = true := by
  unfold containsApp at h
  unfold lookupApp
  cases hf : apps.find? fun p => p.1 = name with
  | none => rw [hf] at h; cases h
  | some p => rfl

/-- One-step unfolding of the main loop of `calculate_hashes`. -/
theorem calcLoop_cons (fs : FS) (apps : AppMap)
    (hashes : List (String × String)) (name : String) (rest : List String) :
    calcLoop fs apps hashes (name :: rest) =
      match lookupApp apps name with
      | none => none
      | some app =>
          match collectDepHashes fs app hashes app.dependencies with
          | .error e => some (.error e)
          | .ok dep_hashes =>
              calcLoop fs apps
                (insertHash hashes name
                  (compute_final_hash
                    (hash_directory fs app.dir app.exclude_patterns)
                    dep_hashes)) rest := rfl

theorem calcLoop_isSome (fs : FS) (apps : AppMap) :
    ∀ (ordered : List String) (hashes : List (String × String)),
    (∀ name ∈ ordered, containsApp apps name = true) →
    (calcLoop fs apps hashes ordered).isSome = true := by
  intro ordered
  induction ordered with
  | nil => intro _ _; rfl
  | cons name rest ih =>
      intro hashes hall
      cases hl : lookupApp apps name with
      | none =>
          have hs := lookupApp_isSome_of_contains (hall name (by simp))
          rw [hl] at hs
          cases hs
      | some app =>
          cases hc : collectDepHashes fs app hashes app.dependencies with
          | error e => simp only [calcLoop_cons, hl, hc, Option.isSome_some]
          | ok dhs =>
              simp only [calcLoop_cons, hl, hc]
              exact ih _ fun n hn => hall n (by simp [hn])

/-- C9 counterexample: the claim says that without the all-names-present
precondition `calculate_hashes` panics rather than returning any
`YethError`; but with order `["B", "X"]` where only `"B"` is a mapping
key, the `IncorrectOrder` error on `B`'s not-yet-computed dependency is
returned before the missing name `"X"` is ever looked up. -/
theorem claim_C9_counterexample :
    containsApp [("B", ⟨"B", ["t", "B"], [Dependency.App "A"], []⟩)] "X"
      = false ∧
    calculate_hashes ⟨[], []⟩ ["B", "X"]
        [("B", ⟨"B", ["t", "B"], [Dependency.App "A"], []⟩)] =
      some (.error .IncorrectOrder) :=
  ⟨rfl, rfl⟩

/-- C9 (amended): the per-name lookup is an unchecked `unwrap`: under
the precondition that every name in the supplied order is a mapping key
the `None` branch is unreachable and `calculate_hashes` never panics;
without it, the panic occurs when the missing name is reached — in
particular immediately when the first name is missing — though a
`YethError` arising earlier in the order may still be returned first. -/
theorem claim_C9_amended :
    (∀ (fs : FS) (apps : AppMap) (ordered : List String),
      (∀ name ∈ ordered, containsApp apps name = true) →
      (calculate_hashes fs ordered apps).isSome = true) ∧
    (∀ (fs : FS) (apps : AppMap) (x : String) (rest : List String),
      lookupApp apps x = none →
      calculate_hashes fs (x :: rest) apps = none) := by
  constructor
  · intro fs apps ordered h
    exact calcLoop_isSome fs apps ordered [] h
  · intro fs apps x rest hx
    unfold calculate_hashes calcLoop
    rw [hx]

/-- C9 amended claim, witnessed: a one-key order on its mapping
succeeds, and a missing first name panics. -/
theorem claim_C9_witness :
    (calculate_hashes ⟨[], []⟩ ["A"]
      [("A", ⟨"A", ["t", "A"], [], []⟩)]).isSome = true ∧
    calculate_hashes ⟨[], []⟩ ["X"] [] = none :=
  ⟨claim_C9_amended.1 _ _ _ (by decide), claim_C9_amended.2 _ _ "X" [] rfl⟩

/-! ## Claim C4: order processing in `calculate_hashes` -/

theorem find?_map_replace (name v : String) :
    ∀ h : List (String × String),
    (h.find? fun p => p.1 = name).isSome = true →
    ((h.map fun p => if p.1 = name then (name, v) else p).find?
        fun p => p.1 = name) = some (name, v) := by
  intro h
  induction h with
  | nil => intro hp; cases hp
  | cons p t ih =>
      intro hp
      by_cases hk : p.1 = name
      · simp [List.find?_cons, if_pos hk]
      · rw [List.map_cons, if_neg hk, List.find?_cons, decide_eq_false hk]
        apply ih
        rw [List.find?_cons, decide_eq_false hk] at hp
        exact hp

theorem find?_map_replace_ne (name v k : String) (hk : k ≠ name) :
    ∀ h : List (String × String),
    ((h.map fun p => if p.1 = name then (name, v) else p).find?
        fun p => p.1 = k) = h.find? fun p => p.1 = k := by
  intro h
  induction h with
  | nil => rfl
  | cons p t ih =>
      by_cases hpn : p.1 = name
      · rw [List.map_cons, if_pos hpn, List.find?_cons, List.find?_cons,
          decide_eq_false (show ((name, v) : String × String).1 ≠ k from
            fun hEq => hk hEq.symm),
          decide_eq_false (show p.1 ≠ k from
            fun hEq => hk ((hpn ▸ hEq : name = k)).symm)]
        exact ih
      · rw [List.map_cons, if_neg hpn, List.find?_cons, List.find?_cons]
        cases hpk : decide (p.1 = k) <;> simp [ih]

theorem lookupHash_insert_self (h : List (String × String)) (name v : String) :
    lookupHash (insertHash h name v) name = some v := by
  unfold insertHash lookupHash
  by_cases hp : (h.find? fun p => p.1 = name).isSome = true
  · rw [if_pos hp, find?_map_replace name v h hp]
    rfl
  · rw [if_neg hp, List.find?_append,
      Option.not_isSome_iff_eq_none.mp hp]
    simp

theorem lookupHash_insert_ne (h : List (String × String)) (name v k : String)
    (hk : k ≠ name) :
    lookupHash (insertHash h name v) k = lookupHash h k := by
  unfold insertHash lookupHash
  by_cases hp : (h.find? fun p => p.1 = name).isSome = true
  · rw [if_pos hp, find?_map_replace_ne name v k hk h]
  · rw [if_neg hp, List.find?_append]
    have : ([((name, v) : String × String)].find? fun p => p.1 = k) = none := by
      simp [List.find?_cons, decide_eq_false
        (show name ≠ k from fun hEq => hk hEq.symm)]
    rw [this]
    cases h.find? fun p => p.1 = k <;> rfl

theorem lookupHash_insert_none {h : List (String × String)} {name v d : String}
    (hn : lookupHash (insertHash h name v) d = none) :
    lookupHash h d = none ∧ d ≠ name := by
  have hd : d ≠ name := by
    intro hEq
    rw [hEq, lookupHash_insert_self] at hn
    cases hn
  rw [lookupHash_insert_ne h name v d hd] at hn
  exact ⟨hn, hd⟩

theorem hash_path_ok {fs : FS} {p : FPath} {pats : List ExcludePattern}
    (hpe : fs.pathExists p = true) :
    hash_path fs p pats = .ok (hashPathD fs p pats) := by
  unfold FS.pathExists at hpe
  rw [Bool.or_eq_true] at hpe
  by_cases hf : fs.isFile p = true
  · simp [hash_path, hashPathD, hf]
  · have hd : fs.isDir p = true := by tauto
    simp [hash_path, hashPathD, hf, hd]

theorem hash_path_error_shape {fs : FS} {p : FPath}
    {pats : List ExcludePattern} {e : YethError}
    (he : hash_path fs p pats = .error e) : e = .NorFileOrDirectory p := by
  unfold hash_path at he
  by_cases hf : fs.isFile p = true
  · rw [if_pos hf] at he; cases he
  · rw [if_neg hf] at he
    by_cases hd : fs.isDir p = true
    · rw [if_pos hd] at he; cases he
    · rw [if_neg hd] at he
      injection he with h
      exact h.symm

theorem collectDepHashes_ok (fs : FS) (app : App)
    (h : List (String × String)) :
    ∀ deps : List Dependency,
    (∀ d, Dependency.App d ∈ deps → (lookupHash h d).isSome = true) →
    (∀ p, Dependency.Path p ∈ deps → fs.pathExists p = true) →
    collectDepHashes fs app h deps = .ok (deps.map fun dep =>
      match dep with
      | .App d => (lookupHash h d).getD ""
      | .Path p => hashPathD fs p app.exclude_patterns) := by
  intro deps
  induction deps with
  | nil => intro _ _; rfl
  | cons dep rest ih =>
      intro hA hP
      have ih' := ih (fun d hd => hA d (by simp [hd]))
        (fun p hp => hP p (by simp [hp]))
      cases dep with
      | App d =>
          have hs := hA d (by simp)
          cases hl : lookupHash h d with
          | none => rw [hl] at hs; cases hs
          | some u =>
              unfold collectDepHashes
              rw [hl, ih']
              simp [hl]
      | Path p =>
          have hok := @hash_path_ok fs p app.exclude_patterns
            (hP p (by simp))
          unfold collectDepHashes
          rw [hok, ih']
          simp

theorem collectDepHashes_incorrect {fs : FS} {app : App}
    {h : List (String × String)} :
    ∀ {deps : List Dependency},
    collectDepHashes fs app h deps = .error .IncorrectOrder →
    ∃ d, Dependency.App d ∈ deps ∧ lookupHash h d = none := by
  intro deps
  induction deps with
  | nil => intro hc; cases hc
  | cons dep rest ih =>
      intro hc
      cases dep with
      | App d =>
          cases hl : lookupHash h d with
          | none => exact ⟨d, by simp, hl⟩
          | some u =>
              unfold collectDepHashes at hc
              rw [hl] at hc
              cases hr : collectDepHashes fs app h rest with
              | ok hs => rw [hr] at hc; cases hc
              | error e =>
                  rw [hr] at hc
                  injection hc with h'
                  obtain ⟨d', hd', hl'⟩ := ih (h' ▸ hr)
                  exact ⟨d', by simp [hd'], hl'⟩
      | Path p =>
          unfold collectDepHashes at hc
          cases hp : hash_path fs p app.exclude_patterns with
          | error e =>
              rw [hp] at hc
              injection hc with h'
              rw [hash_path_error_shape hp] at h'
              cases h'
          | ok ph =>
              rw [hp] at hc
              cases hr : collectDepHashes fs app h rest with
              | ok hs => rw [hr] at hc; cases hc
              | error e =>
                  rw [hr] at hc
                  injection hc with h'
                  obtain ⟨d', hd', hl'⟩ := ih (h' ▸ hr)
                  exact ⟨d', by simp [hd'], hl'⟩

/-- When the main loop fails with `IncorrectOrder`, some application in
the supplied order has an `AppRef` dependency whose hash is neither
among the names processed before it nor in the initial accumulator. -/
theorem calcLoop_incorrectOrder (fs : FS) (apps : AppMap) :
    ∀ (ordered : List String) (h : List (String × String)),
    calcLoop fs apps h ordered = some (.error .IncorrectOrder) →
    ∃ pre name post app d, ordered = pre ++ name :: post ∧
      lookupApp apps name = some app ∧
      Dependency.App d ∈ app.dependencies ∧
      d ∉ pre ∧ lookupHash h d = none := by
  intro ordered
  induction ordered with
  | nil => intro h hc; simp [calcLoop] at hc
  | cons name rest ih =>
      intro h hc
      rw [calcLoop_cons] at hc
      cases hl : lookupApp apps name with
      | none => rw [hl] at hc; cases hc
      | some app =>
          simp only [hl] at hc
          cases hcd : collectDepHashes fs app h app.dependencies with
          | error e =>
              simp only [hcd] at hc
              injection hc with h'
              injection h' with h''
              obtain ⟨d, hdmem, hdn⟩ := collectDepHashes_incorrect (h'' ▸ hcd)
              exact ⟨[], name, rest, app, d, rfl, hl, hdmem,
                List.not_mem_nil d, hdn⟩
          | ok dhs =>
              simp only [hcd] at hc
              obtain ⟨pre, n', post, app', d, hdec, hl', hmem, hpre, hnone⟩ :=
                ih _ hc
              obtain ⟨hh, hne⟩ := lookupHash_insert_none hnone
              refine ⟨name :: pre, n', post, app', d, by rw [hdec]; rfl,
                hl', hmem, ?_, hh⟩
              intro hmem'
              rcases List.mem_cons.mp hmem' with hEq | hEq
              · exact hne hEq
              · exact hpre hEq

/-- When the precedence discipline holds, the main loop succeeds and
each processed application's entry is the digest of its own directory
hash followed by its dependencies' hashes in declaration order: the
already-computed final hash for an `AppRef`, a fresh path hash under the
owner's exclusions for a `PathRef`. -/
theorem calcLoop_ok (fs : FS) (apps : AppMap) :
    ∀ (ordered : List String) (h : List (String × String)),
    ordered.Nodup →
    (∀ name ∈ ordered, containsApp apps name = true) →
    (∀ pre name post, ordered = pre ++ name :: post →
      ∀ app d, lookupApp apps name = some app →
        Dependency.App d ∈ app.dependencies →
        (lookupHash h d).isSome = true ∨ d ∈ pre) →
    (∀ name app p, name ∈ ordered → lookupApp apps name = some app →
      Dependency.Path p ∈ app.dependencies → fs.pathExists p = true) →
    (∀ name ∈ ordered, lookupHash h name = none) →
    ∃ m, calcLoop fs apps h ordered = some (.ok m) ∧
      (∀ k v, lookupHash h k = some v → lookupHash m k = some v) ∧
      (∀ pre name post, ordered = pre ++ name :: post →
        ∃ app, lookupApp apps name = some app ∧
          lookupHash m name = some (compute_final_hash
            (hash_directory fs app.dir app.exclude_patterns)
            (app.dependencies.map fun dep =>
              match dep with
              | .App d => (lookupHash m d).getD ""
              | .Path p => hashPathD fs p app.exclude_patterns))) := by
  intro ordered
  induction ordered with
  | nil =>
      intro h _ _ _ _ _
      refine ⟨h, rfl, fun k v hv => hv, ?_⟩
      intro pre name post hdec
      cases pre <;> simp at hdec
  | cons name rest ih =>
      intro h hnd hall hprec hpaths hfresh
      obtain ⟨app, hl⟩ := Option.isSome_iff_exists.mp
        (lookupApp_isSome_of_contains (hall name (by simp)))
      have hAhead : ∀ d, Dependency.App d ∈ app.dependencies →
          (lookupHash h d).isSome = true := by
        intro d hd
        rcases hprec [] name rest rfl app d hl hd with hs | hs
        · exact hs
        · cases hs
      have hPhead : ∀ p, Dependency.Path p ∈ app.dependencies →
          fs.pathExists p = true :=
        fun p hp => hpaths name app p (by simp) hl hp
      have hcd := collectDepHashes_ok fs app h app.dependencies hAhead hPhead
      let v := compute_final_hash
        (hash_directory fs app.dir app.exclude_patterns)
        (app.dependencies.map fun dep =>
          match dep with
          | .App d => (lookupHash h d).getD ""
          | .Path p => hashPathD fs p app.exclude_patterns)
      have hname_fresh : lookupHash h name = none := hfresh name (by simp)
      have hname_not_rest : name ∉ rest := (List.nodup_cons.mp hnd).1
      -- the invariants for the tail, over the extended accumulator
      have hpres1 : ∀ k u, lookupHash h k = some u →
          lookupHash (insertHash h name v) k = some u := by
        intro k u hk
        have hkname : k ≠ name := by
          intro hEq
          rw [hEq, hname_fresh] at hk
          cases hk
        rw [lookupHash_insert_ne h name v k hkname]
        exact hk
      obtain ⟨m, hloop, hpres, hchar⟩ := ih (insertHash h name v)
        (List.nodup_cons.mp hnd).2
        (fun n hn => hall n (by simp [hn]))
        (by
          intro pre n post hdec app' d hl' hd
          rcases hprec (name :: pre) n post (by rw [hdec]; rfl) app' d hl' hd
            with hs | hs
          · left
            obtain ⟨u, hu⟩ := Option.isSome_iff_exists.mp hs
            rw [hpres1 d u hu]
            rfl
          · rcases List.mem_cons.mp hs with hEq | hEq
            · left
              rw [hEq, lookupHash_insert_self]
              rfl
            · right; exact hEq)
        (fun n app' p hn => hpaths n app' p (by simp [hn]))
        (by
          intro n hn
          have hne : n ≠ name := fun hEq => hname_not_rest (hEq ▸ hn)
          rw [lookupHash_insert_ne h name v n hne]
          exact hfresh n (by simp [hn]))
      refine ⟨m, ?_, ?_, ?_⟩
      · simp only [calcLoop_cons, hl, hcd]
        exact hloop
      · intro k u hk
        exact hpres k u (hpres1 k u hk)
      · intro pre n post hdec
        cases pre with
        | nil =>
            injection hdec with h1 h2
            subst h1
            subst h2
            refine ⟨app, hl, ?_⟩
            have hmap : (app.dependencies.map fun dep =>
                match dep with
                | Dependency.App d => (lookupHash h d).getD ""
                | Dependency.Path p => hashPathD fs p app.exclude_patterns) =
                (app.dependencies.map fun dep =>
                  match dep with
                  | Dependency.App d => (lookupHash m d).getD ""
                  | Dependency.Path p => hashPathD fs p app.exclude_patterns) := by
              apply List.map_congr_left
              intro dep hdep
              cases dep with
              | App d =>
                  obtain ⟨u, hu⟩ := Option.isSome_iff_exists.mp (hAhead d hdep)
                  show (lookupHash h d).getD "" = (lookupHash m d).getD ""
                  rw [hu, hpres d u (hpres1 d u hu)]
              | Path p => rfl
            have hm : lookupHash m name = some v :=
              hpres name v (lookupHash_insert_self h name v)
            rw [hm, show (v : String) = compute_final_hash
              (hash_directory fs app.dir app.exclude_patterns)
              (app.dependencies.map fun dep =>
                match dep with
                | Dependency.App d => (lookupHash h d).getD ""
                | Dependency.Path p => hashPathD fs p app.exclude_patterns)
              from rfl, hmap]
        | cons x pre' =>
            injection hdec with h1 h2
            subst h1
            exact hchar pre' n post h2

/-- C4: `calculate_hashes` processes the supplied order strictly left to
right; the order `["B", "A"]` where `B` has an `AppRef` dependency on
`A` fails with `IncorrectOrder`; every `IncorrectOrder` failure comes
from an application one of whose `AppRef` dependencies precedes it
nowhere in the order; and under the precedence discipline it succeeds,
mapping each application to the digest of its own directory hash
followed by its dependency hashes in declaration order — the
already-computed final hash for an `AppRef`, a fresh path hash under the
owner's exclusion patterns for a `PathRef`. -/
theorem claim_C4 :
    (calculate_hashes emptyFS ["B", "A"] appsAB =
      some (.error .IncorrectOrder)) ∧
    (∀ (fs : FS) (apps : AppMap) (ordered : List String),
      calculate_hashes fs ordered apps = some (.error .IncorrectOrder) →
      ∃ pre name post app d, ordered = pre ++ name :: post ∧
        lookupApp apps name = some app ∧
        Dependency.App d ∈ app.dependencies ∧ d ∉ pre) ∧
    (∀ (fs : FS) (apps : AppMap) (ordered : List String),
      ordered.Nodup →
      (∀ name ∈ ordered, containsApp apps name = true) →
      (∀ pre name post, ordered = pre ++ name :: post →
        ∀ app d, lookupApp apps name = some app →
          Dependency.App d ∈ app.dependencies → d ∈ pre) →
      (∀ name app p, name ∈ ordered → lookupApp apps name = some app →
        Dependency.Path p ∈ app.dependencies → fs.pathExists p = true) →
      ∃ m, calculate_hashes fs ordered apps = some (.ok m) ∧
        ∀ pre name post, ordered = pre ++ name :: post →
          ∃ app, lookupApp apps name = some app ∧
            lookupHash m name = some (compute_final_hash
              (hash_directory fs app.dir app.exclude_patterns)
              (app.dependencies.map fun dep =>
                match dep with
                | .App d => (lookupHash m d).getD ""
                | .Path p => hashPathD fs p app.exclude_patterns))) := by
  refine ⟨rfl, ?_, ?_⟩
  · intro fs apps ordered hc
    obtain ⟨pre, name, post, app, d, h1, h2, h3, h4, _⟩ :=
      calcLoop_incorrectOrder fs apps ordered [] hc
    exact ⟨pre, name, post, app, d, h1, h2, h3, h4⟩
  · intro fs apps ordered hnd hall hprec hpaths
    obtain ⟨m, h1, _, h3⟩ := calcLoop_ok fs apps ordered [] hnd hall
      (fun pre name post hdec app d hl hd =>
        Or.inr (hprec pre name post hdec app d hl hd))
      hpaths (fun name _ => rfl)
    exact ⟨m, h1, h3⟩

/-- C4, witnessed: the `IncorrectOrder` failure of `["B", "A"]` exhibits
its offending dependency, and the correct order `["A", "B"]` succeeds
with the characterized hash map. -/
theorem claim_C4_witness :
    (∃ pre name post app d, (["B", "A"] : List String) = pre ++ name :: post ∧
      lookupApp appsAB name = some app ∧
      Dependency.App d ∈ app.dependencies ∧ d ∉ pre) ∧
    (∃ m, calculate_hashes emptyFS ["A", "B"] appsAB = some (.ok m) ∧
      ∀ pre name post, (["A", "B"] : List String) = pre ++ name :: post →
        ∃ app, lookupApp appsAB name = some app ∧
          lookupHash m name = some (compute_final_hash
            (hash_directory emptyFS app.dir app.exclude_patterns)
            (app.dependencies.map fun dep =>
              match dep with
              | .App d => (lookupHash m d).getD ""
              | .Path p => hashPathD emptyFS p app.exclude_patterns))) := by
  constructor
  · exact claim_C4.2.1 emptyFS appsAB ["B", "A"] claim_C4.1
  · apply claim_C4.2.2 emptyFS appsAB ["A", "B"] (by decide) (by decide)
    · intro pre name post hdec app d hl hd
      cases pre with
      | nil =>
          injection hdec with h1 h2
          subst h1
          rw [show lookupApp appsAB "A" = some appA from rfl] at hl
          injection hl with h'
          subst h'
          simp [appA] at hd
      | cons x pre' =>
          injection hdec with h1 h2
          subst h1
          cases pre' with
          | nil =>
              injection h2 with h3 h4
              subst h3
              rw [show lookupApp appsAB "B" = some appB from rfl] at hl
              injection hl with h'
              subst h'
              simp only [appB, List.mem_singleton] at hd
              injection hd with h5
              subst h5
              simp
          | cons y pre'' =>
              injection h2 with h3 h4
              have := congrArg List.length h4
              simp at this
              omega
    · intro name app p hmem hl hp
      rcases List.mem_cons.mp hmem with h | h
      · subst h
        rw [show lookupApp appsAB "A" = some appA from rfl] at hl
        injection hl with h'
        subst h'
        simp [appA] at hp
      · rcases List.mem_cons.mp h with h' | h'
        · subst h'
          rw [show lookupApp appsAB "B" = some appB from rfl] at hl
          injection hl with h''
          subst h''
          simp [appB] at hp
        · cases h'

/-! ## The transitive resolver: support lemmas -/

theorem contains_iff_mem (l : List String) (x : String) :
    l.contains x = true ↔ x ∈ l := by
  simp [List.contains, List.elem_iff]

theorem contains_false_iff (l : List String) (x : String) :
    l.contains x = false ↔ x ∉ l := by
  rw [← Bool.not_eq_true, not_iff_not]
  exact contains_iff_mem l x

theorem append_singleton_decomp {l p s : List String} {a c : String}
    (h : l ++ [c] = p ++ a :: s) :
    (p = l ∧ a = c ∧ s = []) ∨ ∃ s', s = s' ++ [c] ∧ l = p ++ a :: s' := by
  rcases List.eq_nil_or_concat s with hs | ⟨s', c', hs⟩
  · subst hs
    obtain ⟨h1, h2⟩ := List.append_inj' h rfl
    injection h2 with h3
    exact Or.inl ⟨h1.symm, h3.symm, rfl⟩
  · rw [List.concat_eq_append] at hs
    subst hs
    have h' : l ++ [c] = (p ++ a :: s') ++ [c'] := by
      rw [h]
      simp
    obtain ⟨h1, h2⟩ := List.append_inj' h' rfl
    injection h2 with h3
    exact Or.inr ⟨s', by rw [h3], h1⟩

theorem OrderedL_append {apps : AppMap} {l : List String} {a : String}
    (hl : OrderedL apps l) (ha : ∀ b, dependsOnL apps a b → b ∈ l) :
    OrderedL apps (l ++ [a]) := by
  intro p x s hdec b hdep
  rcases append_singleton_decomp hdec with ⟨hp, hx, _⟩ | ⟨s', _, hl'⟩
  · subst hp
    subst hx
    exact ha b hdep
  · exact hl p x s' hl' b hdep

/-- Along the traversal stack, every member has a dependency path down
to the head. -/
theorem chain_mem_path (apps : AppMap) :
    ∀ (l : List String), List.Chain' (fun a b => dependsOnL apps b a) l →
    ∀ x ∈ l, ∀ hd, l.head? = some hd →
    Relation.ReflTransGen (dependsOnL apps) x hd := by
  intro l
  induction l with
  | nil => intro _ x hx; cases hx
  | cons h1 tl ih =>
      intro hch x hx hd hhd
      injection hhd with hhd
      subst hhd
      rcases List.mem_cons.mp hx with hEq | hEq
      · subst hEq
        exact Relation.ReflTransGen.refl
      · cases tl with
        | nil => cases hEq
        | cons h2 tl' =>
            rw [List.chain'_cons] at hch
            have hpath := ih hch.2 x hEq h2 rfl
            exact hpath.tail hch.1

theorem filter_cons_proc (current : String) (proc : List String)
    (hnp : proc.contains current = false) :
    ∀ (l : List String), l.Nodup → current ∈ l →
    (l.filter fun k => !(current :: proc).contains k).length + 1 =
      (l.filter fun k => !proc.contains k).length := by
  intro l
  induction l with
  | nil => intro _ hk; cases hk
  | cons x xs ih =>
      intro hnd hk
      rw [List.nodup_cons] at hnd
      rcases List.mem_cons.mp hk with hEq | hEq
      · subst hEq
        have h1 : (current :: proc).contains current = true := by
          rw [contains_iff_mem]
          simp
        have h2 : ∀ k ∈ xs,
            (!(current :: proc).contains k : Bool) = !proc.contains k := by
          intro k hkx
          have hne : k ≠ current := fun hEq => hnd.1 (hEq ▸ hkx)
          by_cases hm : k ∈ proc
          · rw [(contains_iff_mem _ _).mpr hm,
              (contains_iff_mem _ _).mpr (by simp [hm])]
          · rw [(contains_false_iff _ _).mpr hm,
              (contains_false_iff _ _).mpr (by simp [hm, hne])]
        rw [List.filter_cons, List.filter_cons, h1, hnp,
          List.filter_congr h2]
        simp
      · have hne : x ≠ current := fun hEq' => hnd.1 (hEq' ▸ hEq)
        have hxc : (!(current :: proc).contains x : Bool) = !proc.contains x := by
          by_cases hm : x ∈ proc
          · rw [(contains_iff_mem _ _).mpr hm,
              (contains_iff_mem _ _).mpr (by simp [hm])]
          · rw [(contains_false_iff _ _).mpr hm,
              (contains_false_iff _ _).mpr (by simp [hm, hne])]
        rw [List.filter_cons, List.filter_cons, hxc]
        by_cases hpx : (!proc.contains x : Bool) = true
        · rw [if_pos hpx, if_pos hpx]
          simp only [List.length_cons]
          have := ih hnd.2 hEq
          omega
        · rw [if_neg hpx, if_neg hpx]
          exact ih hnd.2 hEq

theorem remKeys_cons {apps : AppMap} {proc : List String} {current : String}
    (hk : current ∈ apps.map Prod.fst)
    (hnp : proc.contains current = false) :
    remKeys apps (current :: proc) + 1 = remKeys apps proc :=
  filter_cons_proc current proc hnp (apps.map Prod.fst).dedup
    (List.nodup_dedup _) (List.mem_dedup.mpr hk)

/-- One-step unfolding of `dfsGo` at positive fuel. -/
theorem dfsGo_succ (apps : AppMap) (n : Nat) (current : String)
    (st : DfsState) :
    dfsGo apps (n + 1) current st =
      if st.processing.contains current then st
      else if st.visited.contains current then st
      else
        let st1 : DfsState := { st with processing := current :: st.processing }
        let st2 :=
          match lookupApp apps current with
          | some app =>
              app.dependencies.foldl
                (fun acc dep =>
                  match dep with
                  | Dependency.App dep_name => dfsGo apps n dep_name acc
                  | Dependency.Path _ => acc) st1
          | none => st1
        { visited := current :: st2.visited,
          processing := st2.processing.erase current,
          result := st2.result ++ [current] } := rfl

theorem nodup_append_one {l : List String} {a : String} (hl : l.Nodup)
    (ha : a ∉ l) : (l ++ [a]).Nodup := by
  induction l with
  | nil => simp
  | cons x xs ih =>
      rw [List.cons_append, List.nodup_cons]
      rw [List.nodup_cons] at hl
      refine ⟨?_, ih hl.2 fun hm => ha (by simp [hm])⟩
      intro hm
      rcases List.mem_append.mp hm with h | h
      · exact hl.1 h
      · rw [List.mem_singleton] at h
        exact ha (h ▸ List.mem_cons_self x xs)

theorem lookupApp_mem_keys {apps : AppMap} {current : String} {app : App}
    (h : lookupApp apps current = some app) :
    current ∈ apps.map Prod.fst := by
  unfold lookupApp at h
  cases hf : apps.find? fun p => p.1 = current with
  | none => rw [hf] at h; cases h
  | some p =>
      have hp := List.find?_some hf
      rw [decide_eq_true_eq] at hp
      exact hp ▸ List.mem_map_of_mem Prod.fst (List.mem_of_find?_eq_some hf)

/-- The master lemma about the resolver's depth-first traversal, on an
acyclic `AppRef` relation: the state invariant is preserved, the stack
is restored, the result is extended in dependency-first order, and the
visited node lands in the result. -/
theorem dfsGo_master (apps : AppMap)
    (hacyc : ∀ n, ¬ Relation.TransGen (dependsOnL apps) n n) :
    ∀ (fuel : Nat) (current : String) (st : DfsState),
    DfsInv st →
    List.Chain' (fun a b => dependsOnL apps b a) st.processing →
    (∀ hd, st.processing.head? = some hd → dependsOnL apps hd current) →
    remKeys apps st.processing < fuel →
    DfsInv (dfsGo apps fuel current st) ∧
    (dfsGo apps fuel current st).processing = st.processing ∧
    (∃ delta, (dfsGo apps fuel current st).result = st.result ++ delta) ∧
    (OrderedL apps st.result →
      OrderedL apps (dfsGo apps fuel current st).result) ∧
    current ∈ (dfsGo apps fuel current st).result := by
  intro fuel
  induction fuel with
  | zero =>
      intro current st _ _ _ hrk
      exact absurd hrk (Nat.not_lt_zero _)
  | succ n ihf =>
      intro current st hinv hchain hlink hrk
      by_cases hproc : st.processing.contains current = true
      · exfalso
        have hmem := (contains_iff_mem _ _).mp hproc
        cases hhd : st.processing.head? with
        | none =>
            cases hp : st.processing with
            | nil => rw [hp] at hmem; cases hmem
            | cons a l => rw [hp] at hhd; cases hhd
        | some hd =>
            have hpath :=
              chain_mem_path apps st.processing hchain current hmem hd hhd
            exact hacyc current (Relation.TransGen.tail' hpath (hlink hd hhd))
      · have hproc' : st.processing.contains current = false := by
          revert hproc; cases st.processing.contains current <;> simp
        have hcur_proc : current ∉ st.processing :=
          (contains_false_iff _ _).mp hproc'
        by_cases hvis : st.visited.contains current = true
        · have heq : dfsGo apps (n + 1) current st = st := by
            rw [dfsGo_succ, if_neg (by rw [hproc']; simp), if_pos hvis]
          rw [heq]
          exact ⟨hinv, rfl, ⟨[], by simp⟩, id,
            (hinv.2.1 current).mp ((contains_iff_mem _ _).mp hvis)⟩
        · have hvis' : st.visited.contains current = false := by
            revert hvis; cases st.visited.contains current <;> simp
          have hcur_res : current ∉ st.result := fun hm =>
            (contains_false_iff _ _).mp hvis' ((hinv.2.1 current).mpr hm)
          have hinv1 : DfsInv ⟨st.visited, current :: st.processing,
              st.result⟩ := by
            refine ⟨hinv.1, hinv.2.1, ?_⟩
            intro x hx
            rcases List.mem_cons.mp hx with h | h
            · exact h ▸ hcur_res
            · exact hinv.2.2 x h
          have hchain1 : List.Chain' (fun a b => dependsOnL apps b a)
              (current :: st.processing) := by
            cases hp : st.processing with
            | nil => exact List.chain'_singleton current
            | cons hd tl =>
                rw [List.chain'_cons]
                exact ⟨hlink hd (by rw [hp]; rfl), hp ▸ hchain⟩
          cases hlook : lookupApp apps current with
          | none =>
              have heq : dfsGo apps (n + 1) current st =
                  { visited := current :: st.visited,
                    processing := st.processing,
                    result := st.result ++ [current] } := by
                rw [dfsGo_succ, if_neg (by rw [hproc']; simp),
                  if_neg (by rw [hvis']; simp)]
                simp only [hlook]
                rw [List.erase_cons_head]
              rw [heq]
              refine ⟨⟨nodup_append_one hinv.1 hcur_res, ?_, ?_⟩, rfl,
                ⟨[current], rfl⟩, ?_, by simp⟩
              · intro x
                simp only [List.mem_cons, List.mem_append,
                  List.mem_singleton]
                rw [hinv.2.1 x]
                tauto
              · intro x hx
                simp only [List.mem_append, List.mem_singleton]
                rintro (h | h)
                · exact hinv.2.2 x hx h
                · exact hcur_proc (h ▸ hx)
              · intro ho
                apply OrderedL_append ho
                intro b hb
                obtain ⟨app, hl, _⟩ := hb
                rw [hlook] at hl
                cases hl
          | some app =>
              have hkey := lookupApp_mem_keys hlook
              have hrk1 : remKeys apps (current :: st.processing) < n := by
                have := remKeys_cons hkey hproc'
                omega
              -- the loop over the dependency list
              have hfold : ∀ (deps : List Dependency) (acc : DfsState),
                  (∀ d, Dependency.App d ∈ deps →
                    Dependency.App d ∈ app.dependencies) →
                  DfsInv acc →
                  acc.processing = current :: st.processing →
                  DfsInv (deps.foldl
                    (fun acc dep =>
                      match dep with
                      | Dependency.App dep_name => dfsGo apps n dep_name acc
                      | Dependency.Path _ => acc) acc) ∧
                  (deps.foldl
                    (fun acc dep =>
                      match dep with
                      | Dependency.App dep_name => dfsGo apps n dep_name acc
                      | Dependency.Path _ => acc) acc).processing =
                    current :: st.processing ∧
                  (∃ delta, (deps.foldl
                    (fun acc dep =>
                      match dep with
                      | Dependency.App dep_name => dfsGo apps n dep_name acc
                      | Dependency.Path _ => acc) acc).result =
                    acc.result ++ delta) ∧
                  (OrderedL apps acc.result → OrderedL apps (deps.foldl
                    (fun acc dep =>
                      match dep with
                      | Dependency.App dep_name => dfsGo apps n dep_name acc
                      | Dependency.Path _ => acc) acc).result) ∧
                  (∀ d, Dependency.App d ∈ deps → d ∈ (deps.foldl
                    (fun acc dep =>
                      match dep with
                      | Dependency.App dep_name => dfsGo apps n dep_name acc
                      | Dependency.Path _ => acc) acc).result) := by
                intro deps
                induction deps with
                | nil =>
                    intro acc _ hinv' hp'
                    exact ⟨hinv', hp', ⟨[], by simp⟩, id,
                      fun d hd => absurd hd (List.not_mem_nil _)⟩
                | cons dep rest ihd =>
                    intro acc hsub hinv' hp'
                    simp only [List.foldl_cons]
                    cases dep with
                    | Path p =>
                        have hrec := ihd acc
                          (fun d hd => hsub d (by simp [hd])) hinv' hp'
                        refine ⟨hrec.1, hrec.2.1, hrec.2.2.1,
                          hrec.2.2.2.1, ?_⟩
                        intro d hd
                        rcases List.mem_cons.mp hd with h | h
                        · cases h
                        · exact hrec.2.2.2.2 d h
                    | App dname =>
                        have hdep : dependsOnL apps current dname :=
                          ⟨app, hlook, hsub dname (by simp)⟩
                        have hlink' : ∀ hd,
                            acc.processing.head? = some hd →
                            dependsOnL apps hd dname := by
                          intro hd hhd
                          rw [hp'] at hhd
                          injection hhd with hhd
                          exact hhd ▸ hdep
                        have hchain' : List.Chain'
                            (fun a b => dependsOnL apps b a)
                            acc.processing := by
                          rw [hp']
                          exact hchain1
                        have hrk' : remKeys apps acc.processing < n := by
                          rw [hp']
                          exact hrk1
                        obtain ⟨hI, hP, ⟨d1, hR⟩, hO, hM⟩ :=
                          ihf dname acc hinv' hchain' hlink' hrk'
                        have hP' : (dfsGo apps n dname acc).processing =
                            current :: st.processing := by
                          rw [hP, hp']
                        obtain ⟨hI2, hP2, ⟨d2, hR2⟩, hO2, hM2⟩ :=
                          ihd (dfsGo apps n dname acc)
                            (fun d hd => hsub d (by simp [hd])) hI hP'
                        refine ⟨hI2, hP2,
                          ⟨d1 ++ d2, by rw [hR2, hR, List.append_assoc]⟩,
                          fun ho => hO2 (hO ho), ?_⟩
                        intro d hd
                        rcases List.mem_cons.mp hd with h | h
                        · injection h with h
                          subst h
                          rw [hR2]
                          exact List.mem_append_left _ hM
                        · exact hM2 d h
              obtain ⟨hI2, hP2, ⟨delta, hR2⟩, hO2, hM2⟩ :=
                hfold app.dependencies
                  ⟨st.visited, current :: st.processing, st.result⟩
                  (fun _ hd => hd) hinv1 rfl
              have heq : dfsGo apps (n + 1) current st =
                  { visited := current :: (app.dependencies.foldl
                      (fun acc dep =>
                        match dep with
                        | Dependency.App dep_name => dfsGo apps n dep_name acc
                        | Dependency.Path _ => acc)
                      ⟨st.visited, current :: st.processing,
                        st.result⟩).visited,
                    processing := ((app.dependencies.foldl
                      (fun acc dep =>
                        match dep with
                        | Dependency.App dep_name => dfsGo apps n dep_name acc
                        | Dependency.Path _ => acc)
                      ⟨st.visited, current :: st.processing,
                        st.result⟩).processing).erase current,
                    result := (app.dependencies.foldl
                      (fun acc dep =>
                        match dep with
                        | Dependency.App dep_name => dfsGo apps n dep_name acc
                        | Dependency.Path _ => acc)
                      ⟨st.visited, current :: st.processing,
                        st.result⟩).result ++ [current] } := by
                rw [dfsGo_succ, if_neg (by rw [hproc']; simp),
                  if_neg (by rw [hvis']; simp)]
                simp only [hlook]
              rw [heq]
              have hcur_st2 : current ∉ (app.dependencies.foldl
                  (fun acc dep =>
                    match dep with
                    | Dependency.App dep_name => dfsGo apps n dep_name acc
                    | Dependency.Path _ => acc)
                  ⟨st.visited, current :: st.processing,
                    st.result⟩).result :=
                hI2.2.2 current (by rw [hP2]; simp)
              refine ⟨⟨nodup_append_one hI2.1 hcur_st2, ?_, ?_⟩,
                by rw [hP2, List.erase_cons_head],
                ⟨delta ++ [current], by rw [hR2]; simp⟩, ?_, by simp⟩
              · intro x
                simp only [List.mem_cons, List.mem_append,
                  List.mem_singleton]
                rw [hI2.2.1 x]
                tauto
              · intro x hx
                rw [hP2, List.erase_cons_head] at hx
                simp only [List.mem_append, List.mem_singleton]
                rintro (h | h)
                · exact hI2.2.2 x (by rw [hP2]; simp [hx]) h
                · exact hcur_proc (h ▸ hx)
              · intro ho
                apply OrderedL_append (hO2 ho)
                intro b hb
                obtain ⟨app', hl', hb'⟩ := hb
                rw [hlook] at hl'
                injection hl' with hl'
                exact hM2 b (hl' ▸ hb')

/-- The invariant part of `dfsGo_master`, with no acyclicity or fuel
assumptions: the state invariant is preserved, the stack is restored,
and the result only grows. -/
theorem dfsGo_inv (apps : AppMap) :
    ∀ (fuel : Nat) (current : String) (st : DfsState),
    DfsInv st →
    DfsInv (dfsGo apps fuel current st) ∧
    (dfsGo apps fuel current st).processing = st.processing ∧
    ∃ delta, (dfsGo apps fuel current st).result = st.result ++ delta := by
  intro fuel
  induction fuel with
  | zero =>
      intro current st hinv
      have h0 : dfsGo apps 0 current st = st := rfl
      rw [h0]
      exact ⟨hinv, rfl, ⟨[], by simp⟩⟩
  | succ n ihf =>
      intro current st hinv
      by_cases hproc : st.processing.contains current = true
      · have heq : dfsGo apps (n + 1) current st = st := by
          rw [dfsGo_succ, if_pos hproc]
        rw [heq]
        exact ⟨hinv, rfl, ⟨[], by simp⟩⟩
      · have hproc' : st.processing.contains current = false := by
          revert hproc; cases st.processing.contains current <;> simp
        have hcur_proc : current ∉ st.processing :=
          (contains_false_iff _ _).mp hproc'
        by_cases hvis : st.visited.contains current = true
        · have heq : dfsGo apps (n + 1) current st = st := by
            rw [dfsGo_succ, if_neg (by rw [hproc']; simp), if_pos hvis]
          rw [heq]
          exact ⟨hinv, rfl, ⟨[], by simp⟩⟩
        · have hvis' : st.visited.contains current = false := by
            revert hvis; cases st.visited.contains current <;> simp
          have hcur_res : current ∉ st.result := fun hm =>
            (contains_false_iff _ _).mp hvis' ((hinv.2.1 current).mpr hm)
          have hinv1 : DfsInv ⟨st.visited, current :: st.processing,
              st.result⟩ := by
            refine ⟨hinv.1, hinv.2.1, ?_⟩
            intro x hx
            rcases List.mem_cons.mp hx with h | h
            · exact h ▸ hcur_res
            · exact hinv.2.2 x h
          have hfold : ∀ (deps : List Dependency) (acc : DfsState),
              DfsInv acc →
              acc.processing = current :: st.processing →
              DfsInv (deps.foldl
                (fun acc dep =>
                  match dep with
                  | Dependency.App dep_name => dfsGo apps n dep_name acc
                  | Dependency.Path _ => acc) acc) ∧
              (deps.foldl
                (fun acc dep =>
                  match dep with
                  | Dependency.App dep_name => dfsGo apps n dep_name acc
                  | Dependency.Path _ => acc) acc).processing =
                current :: st.processing ∧
              ∃ delta, (deps.foldl
                (fun acc dep =>
                  match dep with
                  | Dependency.App dep_name => dfsGo apps n dep_name acc
                  | Dependency.Path _ => acc) acc).result =
                acc.result ++ delta := by
            intro deps
            induction deps with
            | nil =>
                intro acc hinv' hp'
                exact ⟨hinv', hp', ⟨[], by simp⟩⟩
            | cons dep rest ihd =>
                intro acc hinv' hp'
                simp only [List.foldl_cons]
                cases dep with
                | Path p => exact ihd acc hinv' hp'
                | App dname =>
                    obtain ⟨hI, hP, ⟨d1, hR⟩⟩ := ihf dname acc hinv'
                    obtain ⟨hI2, hP2, ⟨d2, hR2⟩⟩ :=
                      ihd (dfsGo apps n dname acc) hI (by rw [hP, hp'])
                    exact ⟨hI2, hP2,
                      ⟨d1 ++ d2, by rw [hR2, hR, List.append_assoc]⟩⟩
          cases hlook : lookupApp apps current with
          | none =>
              have heq : dfsGo apps (n + 1) current st =
                  { visited := current :: st.visited,
                    processing := st.processing,
                    result := st.result ++ [current] } := by
                rw [dfsGo_succ, if_neg (by rw [hproc']; simp),
                  if_neg (by rw [hvis']; simp)]
                simp only [hlook]
                rw [List.erase_cons_head]
              rw [heq]
              refine ⟨⟨nodup_append_one hinv.1 hcur_res, ?_, ?_⟩, rfl,
                ⟨[current], rfl⟩⟩
              · intro x
                simp only [List.mem_cons, List.mem_append,
                  List.mem_singleton]
                rw [hinv.2.1 x]
                tauto
              · intro x hx
                simp only [List.mem_append, List.mem_singleton]
                rintro (h | h)
                · exact hinv.2.2 x hx h
                · exact hcur_proc (h ▸ hx)
          | some app =>
              obtain ⟨hI2, hP2, ⟨delta, hR2⟩⟩ :=
                hfold app.dependencies
                  ⟨st.visited, current :: st.processing, st.result⟩
                  hinv1 rfl
              have heq : dfsGo apps (n + 1) current st =
                  { visited := current :: (app.dependencies.foldl
                      (fun acc dep =>
                        match dep with
                        | Dependency.App dep_name => dfsGo apps n dep_name acc
                        | Dependency.Path _ => acc)
                      ⟨st.visited, current :: st.processing,
                        st.result⟩).visited,
                    processing := ((app.dependencies.foldl
                      (fun acc dep =>
                        match dep with
                        | Dependency.App dep_name => dfsGo apps n dep_name acc
                        | Dependency.Path _ => acc)
                      ⟨st.visited, current :: st.processing,
                        st.result⟩).processing).erase current,
                    result := (app.dependencies.foldl
                      (fun acc dep =>
                        match dep with
                        | Dependency.App dep_name => dfsGo apps n dep_name acc
                        | Dependency.Path _ => acc)
                      ⟨st.visited, current :: st.processing,
                        st.result⟩).result ++ [current] } := by
                rw [dfsGo_succ, if_neg (by rw [hproc']; simp),
                  if_neg (by rw [hvis']; simp)]
                simp only [hlook]
              rw [heq]
              have hcur_st2 : current ∉ (app.dependencies.foldl
                  (fun acc dep =>
                    match dep with
                    | Dependency.App dep_name => dfsGo apps n dep_name acc
                    | Dependency.Path _ => acc)
                  ⟨st.visited, current :: st.processing,
                    st.result⟩).result :=
                hI2.2.2 current (by rw [hP2]; simp)
              refine ⟨⟨nodup_append_one hI2.1 hcur_st2, ?_, ?_⟩,
                by rw [hP2, List.erase_cons_head],
                ⟨delta ++ [current], by rw [hR2]; simp⟩⟩
              · intro x
                simp only [List.mem_cons, List.mem_append,
                  List.mem_singleton]
                rw [hI2.2.1 x]
                tauto
              · intro x hx
                rw [hP2, List.erase_cons_head] at hx
                simp only [List.mem_append, List.mem_singleton]
                rintro (h | h)
                · exact hI2.2.2 x (by rw [hP2]; simp [hx]) h
                · exact hcur_proc (h ▸ hx)

/-- With positive fuel, a traversed node either lands in the result or
was already on the stack (the silently cut cyclic branch). -/
theorem dfsGo_mem_or (apps : AppMap) (n : Nat) (current : String)
    (st : DfsState) (hinv : DfsInv st) :
    current ∈ (dfsGo apps (n + 1) current st).result ∨
      current ∈ st.processing := by
  by_cases hproc : st.processing.contains current = true
  · exact Or.inr ((contains_iff_mem _ _).mp hproc)
  · left
    have hproc' : st.processing.contains current = false := by
      revert hproc; cases st.processing.contains current <;> simp
    by_cases hvis : st.visited.contains current = true
    · have heq : dfsGo apps (n + 1) current st = st := by
        rw [dfsGo_succ, if_neg (by rw [hproc']; simp), if_pos hvis]
      rw [heq]
      exact (hinv.2.1 current).mp ((contains_iff_mem _ _).mp hvis)
    · have hvis' : st.visited.contains current = false := by
        revert hvis; cases st.visited.contains current <;> simp
      cases hlook : lookupApp apps current with
      | none =>
          have heq : dfsGo apps (n + 1) current st =
              { visited := current :: st.visited,
                processing := st.processing,
                result := st.result ++ [current] } := by
            rw [dfsGo_succ, if_neg (by rw [hproc']; simp),
              if_neg (by rw [hvis']; simp)]
            simp only [hlook]
            rw [List.erase_cons_head]
          rw [heq]
          simp
      | some app =>
          have heq : dfsGo apps (n + 1) current st =
              { visited := current :: (app.dependencies.foldl
                  (fun acc dep =>
                    match dep with
                    | Dependency.App dep_name => dfsGo apps n dep_name acc
                    | Dependency.Path _ => acc)
                  ⟨st.visited, current :: st.processing,
                    st.result⟩).visited,
                processing := ((app.dependencies.foldl
                  (fun acc dep =>
                    match dep with
                    | Dependency.App dep_name => dfsGo apps n dep_name acc
                    | Dependency.Path _ => acc)
                  ⟨st.visited, current :: st.processing,
                    st.result⟩).processing).erase current,
                result := (app.dependencies.foldl
                  (fun acc dep =>
                    match dep with
                    | Dependency.App dep_name => dfsGo apps n dep_name acc
                    | Dependency.Path _ => acc)
                  ⟨st.visited, current :: st.processing,
                    st.result⟩).result ++ [current] } := by
            rw [dfsGo_succ, if_neg (by rw [hproc']; simp),
              if_neg (by rw [hvis']; simp)]
            simp only [hlook]
          rw [heq]
          simp

/-- From an existing target, the resolver returns a duplicate-free
order containing the target and every direct `AppRef` dependency of the
target — present in the mapping or not. -/
theorem find_deps_direct (apps : AppMap) (target : String) (app : App)
    (hl : lookupApp apps target = some app) :
    ∃ l, find_app_dependencies target apps = .ok l ∧ l.Nodup ∧
      target ∈ l ∧
      ∀ d, Dependency.App d ∈ app.dependencies → d ∈ l := by
  have hcontains : containsApp apps target = true := by
    unfold containsApp
    unfold lookupApp at hl
    cases hf : apps.find? fun p => p.1 = target with
    | none => rw [hf] at hl; cases hl
    | some p => rfl
  have hlen : 1 ≤ apps.length := by
    cases apps with
    | nil => cases hl
    | cons p rest => simp
  have hinv0 : DfsInv ⟨[], [], []⟩ := ⟨List.nodup_nil, by simp, by simp⟩
  obtain ⟨hIfin, _, _⟩ :=
    dfsGo_inv apps (apps.length + 1) target ⟨[], [], []⟩ hinv0
  unfold find_app_dependencies
  rw [if_pos hcontains]
  refine ⟨(dfsGo apps (apps.length + 1) target ⟨[], [], []⟩).result,
    rfl, hIfin.1, ?_, ?_⟩
  · rcases dfsGo_mem_or apps apps.length target ⟨[], [], []⟩ hinv0
      with h | h
    · exact h
    · cases h
  · -- every direct AppRef dependency is in the final result
    have hfold : ∀ (deps : List Dependency) (acc : DfsState),
        DfsInv acc →
        acc.processing = [target] →
        DfsInv (deps.foldl
          (fun acc dep =>
            match dep with
            | Dependency.App dep_name =>
                dfsGo apps apps.length dep_name acc
            | Dependency.Path _ => acc) acc) ∧
        (deps.foldl
          (fun acc dep =>
            match dep with
            | Dependency.App dep_name =>
                dfsGo apps apps.length dep_name acc
            | Dependency.Path _ => acc) acc).processing = [target] ∧
        (∃ delta, (deps.foldl
          (fun acc dep =>
            match dep with
            | Dependency.App dep_name =>
                dfsGo apps apps.length dep_name acc
            | Dependency.Path _ => acc) acc).result =
          acc.result ++ delta) ∧
        ∀ d, Dependency.App d ∈ deps → d ∈ (deps.foldl
          (fun acc dep =>
            match dep with
            | Dependency.App dep_name =>
                dfsGo apps apps.length dep_name acc
            | Dependency.Path _ => acc) acc).result ∨ d = target := by
      intro deps
      induction deps with
      | nil =>
          intro acc hinv' hp'
          exact ⟨hinv', hp', ⟨[], by simp⟩,
            fun d hd => absurd hd (List.not_mem_nil _)⟩
      | cons dep rest ihd =>
          intro acc hinv' hp'
          simp only [List.foldl_cons]
          cases dep with
          | Path p =>
              have hrec := ihd acc hinv' hp'
              refine ⟨hrec.1, hrec.2.1, hrec.2.2.1, ?_⟩
              intro d hd
              rcases List.mem_cons.mp hd with h | h
              · cases h
              · exact hrec.2.2.2 d h
          | App dname =>
              obtain ⟨hI, hP, ⟨d1, hR⟩⟩ :=
                dfsGo_inv apps apps.length dname acc hinv'
              obtain ⟨hI2, hP2, ⟨d2, hR2⟩, hM2⟩ :=
                ihd (dfsGo apps apps.length dname acc) hI (by rw [hP, hp'])
              refine ⟨hI2, hP2,
                ⟨d1 ++ d2, by rw [hR2, hR, List.append_assoc]⟩, ?_⟩
              intro d hd
              rcases List.mem_cons.mp hd with h | h
              · injection h with h
                subst h
                have hmem : d ∈ (dfsGo apps apps.length d acc).result ∨
                    d ∈ acc.processing := by
                  obtain ⟨m, hm⟩ := Nat.exists_eq_add_of_le hlen
                  rw [show apps.length = m + 1 by omega]
                  exact dfsGo_mem_or apps m d acc hinv'
                rcases hmem with hin | hin
                · left
                  rw [hR2]
                  exact List.mem_append_left _ hin
                · right
                  rw [hp'] at hin
                  rcases List.mem_cons.mp hin with h | h
                  · exact h
                  · cases h
              · exact hM2 d h
    -- unfold the top call one step
    intro d hd
    have hproc0 : (([] : List String).contains target) = false := rfl
    have hvis0 : (([] : List String).contains target) = false := rfl
    have heq : dfsGo apps (apps.length + 1) target ⟨[], [], []⟩ =
        { visited := target :: (app.dependencies.foldl
            (fun acc dep =>
              match dep with
              | Dependency.App dep_name =>
                  dfsGo apps apps.length dep_name acc
              | Dependency.Path _ => acc)
            ⟨[], [target], []⟩).visited,
          processing := ((app.dependencies.foldl
            (fun acc dep =>
              match dep with
              | Dependency.App dep_name =>
                  dfsGo apps apps.length dep_name acc
              | Dependency.Path _ => acc)
            ⟨[], [target], []⟩).processing).erase target,
          result := (app.dependencies.foldl
            (fun acc dep =>
              match dep with
              | Dependency.App dep_name =>
                  dfsGo apps apps.length dep_name acc
              | Dependency.Path _ => acc)
            ⟨[], [target], []⟩).result ++ [target] } := by
      rw [dfsGo_succ, if_neg (by simp [hproc0]), if_neg (by simp [hvis0])]
      simp only [hl]
    rw [heq]
    have hinv1 : DfsInv ⟨[], [target], []⟩ := ⟨List.nodup_nil, by simp, by simp⟩
    obtain ⟨_, _, _, hM⟩ := hfold app.dependencies ⟨[], [target], []⟩
      hinv1 rfl
    rcases hM d hd with h | h
    · exact List.mem_append_left _ h
    · rw [h]
      simp

/-! ## Claims C7 and C8: the transitive resolver -/

theorem lookupApp_appsAB (x : String) :
    lookupApp appsAB x = if "A" = x then some appA
      else if "B" = x then some appB else none := by
  unfold lookupApp appsAB
  by_cases hA : ("A" : String) = x
  · simp [List.find?_cons, hA]
  · by_cases hB : ("B" : String) = x
    · simp [List.find?_cons, hA, hB]
    · simp [List.find?_cons, hA, hB]

theorem appsAB_edge {x y : String} (h : dependsOnL appsAB x y) :
    x = "B" ∧ y = "A" := by
  obtain ⟨app, hl, hd⟩ := h
  rw [lookupApp_appsAB] at hl
  by_cases hA : ("A" : String) = x
  · rw [if_pos hA] at hl
    injection hl with hl
    rw [← hl] at hd
    simp [appA] at hd
  · rw [if_neg hA] at hl
    by_cases hB : ("B" : String) = x
    · rw [if_pos hB] at hl
      injection hl with hl
      rw [← hl] at hd
      simp only [appB, List.mem_singleton] at hd
      injection hd with hd
      exact ⟨hB.symm, hd⟩
    · rw [if_neg hB] at hl
      cases hl

theorem appsAB_acyclicL : ∀ n, ¬ Relation.TransGen (dependsOnL appsAB) n n := by
  have hTG : ∀ x y, Relation.TransGen (dependsOnL appsAB) x y →
      x = "B" ∧ y = "A" := by
    intro x y h
    induction h with
    | single h => exact appsAB_edge h
    | tail _ hbc ih =>
        obtain ⟨hb, _⟩ := appsAB_edge hbc
        rw [hb] at ih
        exact absurd ih.2 (by decide)
  intro n hn
  obtain ⟨h1, h2⟩ := hTG n n hn
  rw [h1] at h2
  exact absurd h2 (by decide)

theorem appsAB_memEdge {x y : String} (h : dependsOn appsAB x y) :
    x = "B" ∧ y = "A" := by
  obtain ⟨app, hm, hd⟩ := h
  rcases List.mem_cons.mp hm with hEq | hEq
  · injection hEq with h1 h2
    rw [h2] at hd
    simp [appA] at hd
  · rcases List.mem_cons.mp hEq with hEq' | hEq'
    · injection hEq' with h1 h2
      rw [h2] at hd
      simp only [appB, List.mem_singleton] at hd
      injection hd with hd
      exact ⟨h1, hd⟩
    · cases hEq'

theorem appsAB_acyclic : acyclicDeps appsAB := by
  have hTG : ∀ x y, Relation.TransGen (dependsOn appsAB) x y →
      x = "B" ∧ y = "A" := by
    intro x y h
    induction h with
    | single h => exact appsAB_memEdge h
    | tail _ hbc ih =>
        obtain ⟨hb, _⟩ := appsAB_memEdge hbc
        rw [hb] at ih
        exact absurd ih.2 (by decide)
  intro n hn
  obtain ⟨h1, h2⟩ := hTG n n hn
  rw [h1] at h2
  exact absurd h2 (by decide)

/-- C7: `find_app_dependencies` fails with `AppNotFound` exactly when
the target is not a mapping key; on a present target it returns `Ok`
(never `CircularDependency`, cyclic graphs included) with a
duplicate-free order; and when the `AppRef` relation is acyclic (so the
silent cycle cut never fires), every entry's `AppRef` dependencies
appear strictly before it in the order. -/
theorem claim_C7 :
    (∀ (apps : AppMap) (name : String),
      find_app_dependencies name apps = .error (.AppNotFound name) ↔
        containsApp apps name = false) ∧
    (∀ (apps : AppMap) (name : String), containsApp apps name = true →
      ∃ l, find_app_dependencies name apps = .ok l ∧ l.Nodup) ∧
    (∀ (apps : AppMap) (name : String) (l : List String),
      (∀ n, ¬ Relation.TransGen (dependsOnL apps) n n) →
      find_app_dependencies name apps = .ok l →
      ∀ p x s, l = p ++ x :: s → ∀ b, dependsOnL apps x b → b ∈ p) := by
  refine ⟨?_, ?_, ?_⟩
  · intro apps name
    unfold find_app_dependencies
    by_cases hc : containsApp apps name = true
    · rw [if_pos hc, hc]
      constructor
      · intro h; cases h
      · intro h; cases h
    · have hc' : containsApp apps name = false := by
        revert hc; cases containsApp apps name <;> simp
      rw [if_neg (by rw [hc']; simp), hc']
      exact ⟨fun _ => rfl, fun _ => rfl⟩
  · intro apps name hc
    unfold find_app_dependencies
    rw [if_pos hc]
    have hinv0 : DfsInv ⟨[], [], []⟩ := ⟨List.nodup_nil, by simp, by simp⟩
    exact ⟨_, rfl, (dfsGo_inv apps (apps.length + 1) name _ hinv0).1.1⟩
  · intro apps name l hacyc hok
    unfold find_app_dependencies at hok
    by_cases hc : containsApp apps name = true
    · rw [if_pos hc] at hok
      injection hok with hok
      have hinv0 : DfsInv ⟨[], [], []⟩ := ⟨List.nodup_nil, by simp, by simp⟩
      have hrk : remKeys apps [] < apps.length + 1 := by
        unfold remKeys
        have h1 : ((apps.map Prod.fst).dedup.filter
            fun k => !([] : List String).contains k).length ≤
            (apps.map Prod.fst).dedup.length :=
          (List.filter_sublist _).length_le
        have h2 : (apps.map Prod.fst).dedup.length ≤
            (apps.map Prod.fst).length :=
          (List.dedup_sublist _).length_le
        rw [List.length_map] at h2
        omega
      obtain ⟨_, _, _, hOrd, _⟩ := dfsGo_master apps hacyc
        (apps.length + 1) name ⟨[], [], []⟩ hinv0 List.chain'_nil
        (fun hd hhd => by cases hhd) hrk
      have := hOrd (by intro p a s hdec; cases p <;> cases hdec)
      rw [hok] at this
      exact this
    · rw [if_neg (by revert hc; cases containsApp apps name <;> simp)] at hok
      cases hok

/-- C7, witnessed on the two-application mapping `A ← B`: the missing
target errs with `AppNotFound`, the present target `B` yields a
duplicate-free `Ok` order, and in it `B`'s dependency `A` appears
first. -/
theorem claim_C7_witness :
    (find_app_dependencies "zzz" appsAB = .error (.AppNotFound "zzz") ↔
      containsApp appsAB "zzz" = false) ∧
    (∃ l, find_app_dependencies "B" appsAB = .ok l ∧ l.Nodup) ∧
    (∀ p x s, (["A", "B"] : List String) = p ++ x :: s →
      ∀ b, dependsOnL appsAB x b → b ∈ p) :=
  ⟨claim_C7.1 appsAB "zzz",
   claim_C7.2.1 appsAB "B" (by decide),
   claim_C7.2.2 appsAB "B" ["A", "B"] appsAB_acyclicL rfl⟩

/-- C8: resolution validates only the target: a dangling `AppRef` causes
no error — the missing name itself lands in the returned order — so
`calculate_hashes_for_app` on a target with a dangling `AppRef` reaches
`calculate_hashes` with a name that has no mapping entry and panics
there instead of reporting `DependencyNotFound`. -/
theorem claim_C8 :
    (∀ (apps : AppMap) (target : String) (app : App),
      lookupApp apps target = some app →
      ∃ l, find_app_dependencies target apps = .ok l ∧ target ∈ l ∧
        ∀ d, Dependency.App d ∈ app.dependencies → d ∈ l) ∧
    find_app_dependencies "A" appsGhost = .ok ["ghost", "A"] ∧
    calculate_hashes_for_app emptyFS "A" appsGhost = none := by
  refine ⟨?_, rfl, rfl⟩
  intro apps target app hl
  obtain ⟨l, h1, _, h3, h4⟩ := find_deps_direct apps target app hl
  exact ⟨l, h1, h3, h4⟩

/-- C8, witnessed on the dangling mapping: the resolver returns the
ghost name inside the order. -/
theorem claim_C8_witness :
    ∃ l, find_app_dependencies "A" appsGhost = .ok l ∧ "A" ∈ l ∧
      ∀ d, Dependency.App d ∈ appGhost.dependencies → d ∈ l :=
  claim_C8.1 appsGhost "A" appGhost rfl

/-! ## Claim C5: validation in `topological_sort` -/

theorem countDeps_ok (fs : FS) (apps : AppMap) (app_name : String) :
    ∀ (deps : List Dependency) (g : String → List String),
    (∀ dep ∈ deps, depAppValid apps dep) →
    (∀ dep ∈ deps, depPathValid fs dep) →
    countDeps fs apps app_name g deps =
      .ok (fun x => g x ++ appTargets app_name deps x,
        (appRefCount deps : Int)) := by
  intro deps
  induction deps with
  | nil =>
      intro g _ _
      unfold countDeps
      congr 1
      rw [Prod.mk.injEq]
      refine ⟨funext fun x => ?_, rfl⟩
      simp [appTargets]
  | cons dep rest ih =>
      intro g hA hP
      have hA' : ∀ d ∈ rest, depAppValid apps d :=
        fun d hd => hA d (by simp [hd])
      have hP' : ∀ d ∈ rest, depPathValid fs d :=
        fun d hd => hP d (by simp [hd])
      cases dep with
      | App d =>
          have hc : containsApp apps d = true := hA (.App d) (by simp)
          unfold countDeps
          rw [if_pos hc]
          simp only [ih (fun x => if x = d then g d ++ [app_name] else g x)
            hA' hP']
          congr 1
          rw [Prod.mk.injEq]
          constructor
          · funext x
            by_cases hx : x = d
            · subst hx
              simp [appTargets, List.append_assoc]
            · simp only [if_neg hx, appTargets, List.filterMap_cons]
              rw [if_neg fun hEq => hx hEq.symm]
          · show ((appRefCount rest : Int) + 1) =
              (appRefCount (Dependency.App d :: rest) : Int)
            unfold appRefCount
            rw [List.filter_cons_of_pos (by rfl)]
            push_cast [List.length_cons]
            ring
      | Path p =>
          have hpe : fs.pathExists p = true := hP (.Path p) (by simp)
          unfold countDeps
          rw [if_pos hpe, ih g hA' hP']
          rfl

theorem countDeps_err_app (fs : FS) (apps : AppMap) (app_name : String) :
    ∀ (deps : List Dependency) (g : String → List String),
    (∀ dep ∈ deps, depPathValid fs dep) →
    (∃ dep ∈ deps, ¬ depAppValid apps dep) →
    ∃ d, countDeps fs apps app_name g deps =
        .error (.DependencyNotFound d app_name) ∧
      Dependency.App d ∈ deps ∧ containsApp apps d = false := by
  intro deps
  induction deps with
  | nil =>
      intro g _ hoff
      obtain ⟨dep, hd, _⟩ := hoff
      cases hd
  | cons dep rest ih =>
      intro g hP hoff
      have hP' : ∀ d ∈ rest, depPathValid fs d :=
        fun d hd => hP d (by simp [hd])
      cases dep with
      | App d =>
          by_cases hc : containsApp apps d = true
          · have hoff' : ∃ dep ∈ rest, ¬ depAppValid apps dep := by
              obtain ⟨dep₀, hmem, hbad⟩ := hoff
              rcases List.mem_cons.mp hmem with hEq | hEq
              · exact absurd (show depAppValid apps dep₀ from hEq ▸ hc) hbad
              · exact ⟨dep₀, hEq, hbad⟩
            obtain ⟨d₀, herr, hmem₀, hcf₀⟩ :=
              ih (fun x => if x = d then g d ++ [app_name] else g x) hP' hoff'
            refine ⟨d₀, ?_, by simp [hmem₀], hcf₀⟩
            unfold countDeps
            rw [if_pos hc, herr]
          · have hcf : containsApp apps d = false := by
              revert hc; cases containsApp apps d <;> simp
            refine ⟨d, ?_, by simp, hcf⟩
            unfold countDeps
            rw [if_neg (by rw [hcf]; simp)]
      | Path p =>
          have hpe : fs.pathExists p = true := hP (.Path p) (by simp)
          have hoff' : ∃ dep ∈ rest, ¬ depAppValid apps dep := by
            obtain ⟨dep₀, hmem, hbad⟩ := hoff
            rcases List.mem_cons.mp hmem with hEq | hEq
            · exact absurd (show depAppValid apps dep₀ from hEq ▸ trivial) hbad
            · exact ⟨dep₀, hEq, hbad⟩
          obtain ⟨d₀, herr, hmem₀, hcf₀⟩ := ih g hP' hoff'
          refine ⟨d₀, ?_, by simp [hmem₀], hcf₀⟩
          unfold countDeps
          rw [if_pos hpe, herr]

theorem countDeps_err_path (fs : FS) (apps : AppMap) (app_name : String) :
    ∀ (deps : List Dependency) (g : String → List String),
    (∀ dep ∈ deps, depAppValid apps dep) →
    (∃ dep ∈ deps, ¬ depPathValid fs dep) →
    ∃ p, countDeps fs apps app_name g deps =
        .error (.PathDependencyNotFound p app_name) ∧
      Dependency.Path p ∈ deps ∧ fs.pathExists p = false := by
  intro deps
  induction deps with
  | nil =>
      intro g _ hoff
      obtain ⟨dep, hd, _⟩ := hoff
      cases hd
  | cons dep rest ih =>
      intro g hA hoff
      have hA' : ∀ d ∈ rest, depAppValid apps d :=
        fun d hd => hA d (by simp [hd])
      cases dep with
      | App d =>
          have hc : containsApp apps d = true := hA (.App d) (by simp)
          have hoff' : ∃ dep ∈ rest, ¬ depPathValid fs dep := by
            obtain ⟨dep₀, hmem, hbad⟩ := hoff
            rcases List.mem_cons.mp hmem with hEq | hEq
            · exact absurd (show depPathValid fs dep₀ from hEq ▸ trivial) hbad
            · exact ⟨dep₀, hEq, hbad⟩
          obtain ⟨p₀, herr, hmem₀, hpf₀⟩ :=
            ih (fun x => if x = d then g d ++ [app_name] else g x) hA' hoff'
          refine ⟨p₀, ?_, by simp [hmem₀], hpf₀⟩
          unfold countDeps
          rw [if_pos hc, herr]
      | Path p =>
          by_cases hpe : fs.pathExists p = true
          · have hoff' : ∃ dep ∈ rest, ¬ depPathValid fs dep := by
              obtain ⟨dep₀, hmem, hbad⟩ := hoff
              rcases List.mem_cons.mp hmem with hEq | hEq
              · exact absurd (show depPathValid fs dep₀ from hEq ▸ hpe) hbad
              · exact ⟨dep₀, hEq, hbad⟩
            obtain ⟨p₀, herr, hmem₀, hpf₀⟩ := ih g hA' hoff'
            refine ⟨p₀, ?_, by simp [hmem₀], hpf₀⟩
            unfold countDeps
            rw [if_pos hpe, herr]
          · have hpf : fs.pathExists p = false := by
              revert hpe; cases fs.pathExists p <;> simp
            refine ⟨p, ?_, by simp, hpf⟩
            unfold countDeps
            rw [if_neg (by rw [hpf]; simp)]

theorem buildGraph_ok (fs : FS) (apps : AppMap) :
    ∀ (rest : List (String × App)) (g : String → List String)
      (D : List (String × Int)),
    (∀ p ∈ rest, ∀ dep ∈ p.2.dependencies, depAppValid apps dep) →
    (∀ p ∈ rest, ∀ dep ∈ p.2.dependencies, depPathValid fs dep) →
    buildGraph fs apps rest g D =
      .ok (fun x => g x ++ allTargets rest x, D ++ degList rest) := by
  intro rest
  induction rest with
  | nil =>
      intro g D _ _
      unfold buildGraph
      congr 1
      rw [Prod.mk.injEq]
      refine ⟨funext fun x => ?_, by simp [degList]⟩
      simp [allTargets]
  | cons p rest' ih =>
      intro g D hA hP
      obtain ⟨n, a⟩ := p
      unfold buildGraph
      simp only [countDeps_ok fs apps n a.dependencies g
        (fun dep hd => hA (n, a) (by simp) dep hd)
        (fun dep hd => hP (n, a) (by simp) dep hd)]
      rw [ih _ _ (fun q hq dep hd => hA q (by simp [hq]) dep hd)
          (fun q hq dep hd => hP q (by simp [hq]) dep hd)]
      congr 1
      rw [Prod.mk.injEq]
      constructor
      · funext x
        show (g x ++ appTargets n a.dependencies x) ++ allTargets rest' x =
          g x ++ allTargets ((n, a) :: rest') x
        unfold allTargets
        rw [List.flatMap_cons, List.append_assoc]
      · show (D ++ [(n, (appRefCount a.dependencies : Int))]) ++ degList rest' =
          D ++ degList ((n, a) :: rest')
        unfold degList
        rw [List.map_cons, List.append_assoc]
        rfl

theorem buildGraph_err_app (fs : FS) (apps : AppMap) :
    ∀ (rest : List (String × App)) (g : String → List String)
      (D : List (String × Int)),
    (∀ p ∈ rest, ∀ dep ∈ p.2.dependencies, depPathValid fs dep) →
    (∃ p ∈ rest, ∃ dep ∈ p.2.dependencies, ¬ depAppValid apps dep) →
    ∃ d o app, buildGraph fs apps rest g D =
        .error (.DependencyNotFound d o) ∧
      (o, app) ∈ rest ∧ Dependency.App d ∈ app.dependencies ∧
      containsApp apps d = false := by
  intro rest
  induction rest with
  | nil =>
      intro g D _ hoff
      obtain ⟨p, hp, _⟩ := hoff
      cases hp
  | cons q rest' ih =>
      intro g D hP hoff
      obtain ⟨n, a⟩ := q
      by_cases hhead : ∃ dep ∈ a.dependencies, ¬ depAppValid apps dep
      · obtain ⟨d, herr, hmem, hcf⟩ := countDeps_err_app fs apps n
          a.dependencies g (fun dep hd => hP (n, a) (by simp) dep hd) hhead
        refine ⟨d, n, a, ?_, by simp, hmem, hcf⟩
        unfold buildGraph
        rw [herr]
      · push_neg at hhead
        have hokA : ∀ dep ∈ a.dependencies, depAppValid apps dep := hhead
        have hoff' : ∃ p ∈ rest', ∃ dep ∈ p.2.dependencies,
            ¬ depAppValid apps dep := by
          obtain ⟨p₀, hp₀, dep₀, hd₀, hbad₀⟩ := hoff
          rcases List.mem_cons.mp hp₀ with hEq | hEq
          · subst hEq
            exact absurd (hokA dep₀ hd₀) hbad₀
          · exact ⟨p₀, hEq, dep₀, hd₀, hbad₀⟩
        obtain ⟨d, o, app, herr, hmem, hdep, hcf⟩ :=
          ih (fun x => g x ++ appTargets n a.dependencies x)
            (D ++ [(n, (appRefCount a.dependencies : Int))])
            (fun q hq dep hd => hP q (by simp [hq]) dep hd) hoff'
        refine ⟨d, o, app, ?_, by simp [hmem], hdep, hcf⟩
        unfold buildGraph
        simp only [countDeps_ok fs apps n a.dependencies g hokA
          (fun dep hd => hP (n, a) (by simp) dep hd), herr]

theorem buildGraph_err_path (fs : FS) (apps : AppMap) :
    ∀ (rest : List (String × App)) (g : String → List String)
      (D : List (String × Int)),
    (∀ p ∈ rest, ∀ dep ∈ p.2.dependencies, depAppValid apps dep) →
    (∃ p ∈ rest, ∃ dep ∈ p.2.dependencies, ¬ depPathValid fs dep) →
    ∃ pa o app, buildGraph fs apps rest g D =
        .error (.PathDependencyNotFound pa o) ∧
      (o, app) ∈ rest ∧ Dependency.Path pa ∈ app.dependencies ∧
      fs.pathExists pa = false := by
  intro rest
  induction rest with
  | nil =>
      intro g D _ hoff
      obtain ⟨p, hp, _⟩ := hoff
      cases hp
  | cons q rest' ih =>
      intro g D hA hoff
      obtain ⟨n, a⟩ := q
      by_cases hhead : ∃ dep ∈ a.dependencies, ¬ depPathValid fs dep
      · obtain ⟨pa, herr, hmem, hpf⟩ := countDeps_err_path fs apps n
          a.dependencies g (fun dep hd => hA (n, a) (by simp) dep hd) hhead
        refine ⟨pa, n, a, ?_, by simp, hmem, hpf⟩
        unfold buildGraph
        rw [herr]
      · push_neg at hhead
        have hokP : ∀ dep ∈ a.dependencies, depPathValid fs dep := hhead
        have hoff' : ∃ p ∈ rest', ∃ dep ∈ p.2.dependencies,
            ¬ depPathValid fs dep := by
          obtain ⟨p₀, hp₀, dep₀, hd₀, hbad₀⟩ := hoff
          rcases List.mem_cons.mp hp₀ with hEq | hEq
          · subst hEq
            exact absurd (hokP dep₀ hd₀) hbad₀
          · exact ⟨p₀, hEq, dep₀, hd₀, hbad₀⟩
        obtain ⟨pa, o, app, herr, hmem, hdep, hpf⟩ :=
          ih (fun x => g x ++ appTargets n a.dependencies x)
            (D ++ [(n, (appRefCount a.dependencies : Int))])
            (fun q hq dep hd => hA q (by simp [hq]) dep hd) hoff'
        refine ⟨pa, o, app, ?_, by simp [hmem], hdep, hpf⟩
        unfold buildGraph
        simp only [countDeps_ok fs apps n a.dependencies g
          (fun dep hd => hA (n, a) (by simp) dep hd) hokP, herr]

/-- C5: `topological_sort` validates eagerly, per application: a
dangling `AppRef` fails with `DependencyNotFound` carrying the missing
name and the owner; a missing `PathRef` target fails with
`PathDependencyNotFound` carrying the path and the owner; and the
in-degree list built on success counts exactly each application's
`AppRef` dependencies — `PathRef` dependencies contribute zero. -/
theorem claim_C5 :
    (∀ (fs : FS) (apps : AppMap), pathRefsValid fs apps →
      (∃ p ∈ apps, ∃ dep ∈ p.2.dependencies, ¬ depAppValid apps dep) →
      ∃ d o app, topological_sort fs apps =
          .error (.DependencyNotFound d o) ∧
        (o, app) ∈ apps ∧ Dependency.App d ∈ app.dependencies ∧
        containsApp apps d = false) ∧
    (∀ (fs : FS) (apps : AppMap), appRefsValid apps →
      (∃ p ∈ apps, ∃ dep ∈ p.2.dependencies, ¬ depPathValid fs dep) →
      ∃ pa o app, topological_sort fs apps =
          .error (.PathDependencyNotFound pa o) ∧
        (o, app) ∈ apps ∧ Dependency.Path pa ∈ app.dependencies ∧
        fs.pathExists pa = false) ∧
    (∀ (fs : FS) (apps : AppMap), appRefsValid apps → pathRefsValid fs apps →
      ∃ G, buildGraph fs apps apps (fun _ => []) [] =
        .ok (G, apps.map fun p =>
          (p.1, (appRefCount p.2.dependencies : Int)))) := by
  refine ⟨?_, ?_, ?_⟩
  · intro fs apps hPaths hoff
    obtain ⟨d, o, app, herr, hmem, hdep, hcf⟩ :=
      buildGraph_err_app fs apps apps (fun _ => []) [] hPaths hoff
    refine ⟨d, o, app, ?_, hmem, hdep, hcf⟩
    unfold topological_sort
    rw [herr]
  · intro fs apps hApps hoff
    obtain ⟨pa, o, app, herr, hmem, hdep, hpf⟩ :=
      buildGraph_err_path fs apps apps (fun _ => []) [] hApps hoff
    refine ⟨pa, o, app, ?_, hmem, hdep, hpf⟩
    unfold topological_sort
    rw [herr]
  · intro fs apps hApps hPaths
    refine ⟨fun x => allTargets apps x, ?_⟩
    rw [buildGraph_ok fs apps apps (fun _ => []) [] hApps hPaths]
    congr 1

/-- C5, witnessed: a dangling `AppRef` errs with `DependencyNotFound`,
a missing `PathRef` errs with `PathDependencyNotFound`, and on the
valid two-application mapping the in-degree list is `[A ↦ 0, B ↦ 1]`. -/
theorem claim_C5_witness :
    (∃ d o app, topological_sort emptyFS appsGhost =
        .error (.DependencyNotFound d o) ∧
      (o, app) ∈ appsGhost ∧ Dependency.App d ∈ app.dependencies ∧
      containsApp appsGhost d = false) ∧
    (∃ pa o app, topological_sort emptyFS appsPathBad =
        .error (.PathDependencyNotFound pa o) ∧
      (o, app) ∈ appsPathBad ∧ Dependency.Path pa ∈ app.dependencies ∧
      emptyFS.pathExists pa = false) ∧
    (∃ G, buildGraph emptyFS appsAB appsAB (fun _ => []) [] =
      .ok (G, appsAB.map fun p =>
        (p.1, (appRefCount p.2.dependencies : Int)))) :=
  ⟨claim_C5.1 emptyFS appsGhost (by decide) (by decide),
   claim_C5.2.1 emptyFS appsPathBad (by decide) (by decide),
   claim_C5.2.2 emptyFS appsAB (by decide) (by decide)⟩

/-! ## Kahn correctness development -/

theorem lookupApp_mem {apps : AppMap} {x : String} {app : App}
    (h : lookupApp apps x = some app) : (x, app) ∈ apps := by
  unfold lookupApp at h
  cases hf : apps.find? fun p => p.1 = x with
  | none => rw [hf] at h; cases h
  | some p =>
      rw [hf] at h
      injection h with h
      have hp := List.find?_some hf
      rw [decide_eq_true_eq] at hp
      have hm := List.mem_of_find?_eq_some hf
      have : p = (x, app) := by
        obtain ⟨p1, p2⟩ := p
        simp only at hp h
        rw [hp, h]
      exact this ▸ hm

theorem lookupApp_self {apps : AppMap} (hnd : (apps.map Prod.fst).Nodup) :
    ∀ {x : String} {app : App}, (x, app) ∈ apps →
    lookupApp apps x = some app := by
  induction apps with
  | nil => intro x app h; cases h
  | cons q rest ih =>
      intro x app h
      rw [List.map_cons, List.nodup_cons] at hnd
      rcases List.mem_cons.mp h with hEq | hEq
      · rw [← hEq]
        unfold lookupApp
        rw [List.find?_cons_of_pos _ (by simp)]
        rfl
      · have hne : q.1 ≠ x := by
          intro hq
          exact hnd.1 (hq ▸ List.mem_map_of_mem Prod.fst hEq)
        unfold lookupApp at *
        rw [List.find?_cons_of_neg _ (by simpa using hne)]
        exact ih hnd.2 hEq

theorem mem_keys_exists {apps : AppMap} {x : String}
    (h : x ∈ apps.map Prod.fst) :
    ∃ app, lookupApp apps x = some app ∧ (x, app) ∈ apps := by
  have : ∃ p ∈ apps, p.1 = x := by
    obtain ⟨p, hp, hx⟩ := List.mem_map.mp h
    exact ⟨p, hp, hx⟩
  have hs : (apps.find? fun p => p.1 = x).isSome := by
    rw [List.find?_isSome]
    obtain ⟨p, hp, hx⟩ := this
    exact ⟨p, hp, by simp [hx]⟩
  cases hf : apps.find? fun p => p.1 = x with
  | none => rw [hf] at hs; cases hs
  | some p =>
      refine ⟨p.2, ?_, ?_⟩
      · unfold lookupApp
        rw [hf]
        rfl
      · have hp := List.find?_some hf
        rw [decide_eq_true_eq] at hp
        have hm := List.mem_of_find?_eq_some hf
        rw [← hp]
        exact hm

theorem lookupApp_none {apps : AppMap} {x : String}
    (h : x ∉ apps.map Prod.fst) : lookupApp apps x = none := by
  cases hl : lookupApp apps x with
  | none => rfl
  | some app =>
      exact absurd (List.mem_map_of_mem Prod.fst (lookupApp_mem hl)) h

theorem containsApp_iff {apps : AppMap} {x : String} :
    containsApp apps x = true ↔ x ∈ apps.map Prod.fst := by
  constructor
  · intro h
    unfold containsApp at h
    cases hf : apps.find? fun p => p.1 = x with
    | none => rw [hf] at h; cases h
    | some p =>
        have hp := List.find?_some hf
        rw [decide_eq_true_eq] at hp
        exact hp ▸ List.mem_map_of_mem Prod.fst (List.mem_of_find?_eq_some hf)
  · intro h
    obtain ⟨app, hl, _⟩ := mem_keys_exists h
    unfold containsApp
    unfold lookupApp at hl
    cases hf : apps.find? fun p => p.1 = x with
    | none => rw [hf] at hl; cases hl
    | some p => rfl

/-- The dependency list of a mapping key, through the lookup. -/
def depsOf (apps : AppMap) (x : String) : List Dependency :=
  match lookupApp apps x with
  | some app => app.dependencies
  | none => []

theorem depsOf_eq {apps : AppMap} (hnd : (apps.map Prod.fst).Nodup)
    {x : String} {app : App} (h : (x, app) ∈ apps) :
    depsOf apps x = app.dependencies := by
  unfold depsOf
  rw [lookupApp_self hnd h]

theorem dependsOn_iff {apps : AppMap} (hnd : (apps.map Prod.fst).Nodup)
    {a b : String} :
    dependsOn apps a b ↔ Dependency.App b ∈ depsOf apps a := by
  constructor
  · intro ⟨app, hm, hd⟩
    rw [depsOf_eq hnd hm]
    exact hd
  · intro h
    unfold depsOf at h
    cases hl : lookupApp apps a with
    | none => rw [hl] at h; cases h
    | some app =>
        rw [hl] at h
        exact ⟨app, lookupApp_mem hl, h⟩

theorem depsOf_step_dependsOn {apps : AppMap} {a b : String}
    (h : Dependency.App b ∈ depsOf apps a) : dependsOn apps a b := by
  unfold depsOf at h
  cases hl : lookupApp apps a with
  | none => rw [hl] at h; cases h
  | some app =>
      rw [hl] at h
      exact ⟨app, lookupApp_mem hl, h⟩

/-- The in-degree remaining in one dependency list after the
applications of `P` have been output: the `AppRef` dependencies whose
target is not yet in `P`. -/
def remDeg (P : List String) (deps : List Dependency) : Nat :=
  (deps.filter fun dep =>
    match dep with
    | Dependency.App b => !P.contains b
    | Dependency.Path _ => false).length

/-- The remaining in-degree of a mapping key, as the `Int` the in-degree
list stores. -/
def remDegF (apps : AppMap) (P : List String) (x : String) : Int :=
  (remDeg P (depsOf apps x) : Int)

/-- An in-degree list whose entry values depend only on the key. -/
def mapOf (apps : AppMap) (v : String → Int) : List (String × Int) :=
  apps.map fun p => (p.1, v p.1)

theorem remDeg_nil (deps : List Dependency) :
    remDeg [] deps = appRefCount deps := rfl

theorem ite_cond_true {A : Type} (a b : A) :
    (if true = true then a else b) = a := rfl

theorem ite_cond_false {A : Type} (a b : A) :
    (if false = true then a else b) = b := rfl

theorem remDeg_snoc {P : List String} {a : String} (ha : a ∉ P) :
    ∀ deps, remDeg P deps =
      remDeg (P ++ [a]) deps + deps.count (Dependency.App a) := by
  intro deps
  induction deps with
  | nil => rfl
  | cons dep rest ih =>
      cases dep with
      | App b =>
          simp only [remDeg, List.filter_cons, List.count_cons] at ih ⊢
          by_cases hb : b = a
          · subst hb
            have h1 : P.contains b = false := (contains_false_iff _ _).mpr ha
            have h2 : (P ++ [b]).contains b = true := by
              rw [contains_iff_mem]
              simp
            simp only [h1, h2, Bool.not_false, Bool.not_true, beq_self_eq_true,
              ite_cond_true, ite_cond_false, if_true, if_false,
              List.length_cons]
            omega
          · have heq : (P ++ [a]).contains b = P.contains b := by
              by_cases hm : b ∈ P
              · rw [(contains_iff_mem _ _).mpr hm,
                  (contains_iff_mem _ _).mpr (by simp [hm])]
              · rw [(contains_false_iff _ _).mpr hm,
                  (contains_false_iff _ _).mpr (by simp [hm, hb])]
            have hne : (Dependency.App b == Dependency.App a) = false := by
              simp [hb]
            by_cases hm : b ∈ P
            · have h1 : P.contains b = true := (contains_iff_mem _ _).mpr hm
              simp only [heq, hne, h1, Bool.not_true, ite_cond_false,
                if_true, if_false]
              omega
            · have h1 : P.contains b = false := (contains_false_iff _ _).mpr hm
              simp only [heq, hne, h1, Bool.not_false, ite_cond_true,
                ite_cond_false, if_true, if_false, List.length_cons]
              omega
      | Path p =>
          simp only [remDeg, List.filter_cons, List.count_cons] at ih ⊢
          have hne : (Dependency.Path p == Dependency.App a) = false := by
            simp
          simp only [hne, ite_cond_false, if_true, if_false]
          omega

theorem count_le_remDeg {P : List String} {a : String} (ha : a ∉ P)
    (deps : List Dependency) :
    deps.count (Dependency.App a) ≤ remDeg P deps := by
  rw [remDeg_snoc ha deps]
  omega

theorem remDeg_eq_zero_iff {P : List String} {deps : List Dependency} :
    remDeg P deps = 0 ↔ ∀ b, Dependency.App b ∈ deps → b ∈ P := by
  unfold remDeg
  rw [List.length_eq_zero, List.filter_eq_nil_iff]
  constructor
  · intro h b hb
    have := h _ hb
    simp only [Bool.not_eq_true] at this
    rw [← contains_iff_mem]
    revert this
    cases P.contains b <;> simp
  · intro h dep hdep
    cases dep with
    | App b =>
        have := (contains_iff_mem _ _).mpr (h b hdep)
        simp [this]
        exact h b hdep
    | Path p => simp

theorem appTargets_mem {nm : String} {deps : List Dependency} {a m : String}
    (h : m ∈ appTargets nm deps a) : m = nm := by
  unfold appTargets at h
  obtain ⟨dep, _, hf⟩ := List.mem_filterMap.mp h
  cases dep with
  | App d =>
      simp only at hf
      by_cases hd : d = a
      · rw [if_pos hd] at hf
        injection hf with hf
        exact hf.symm
      · rw [if_neg hd] at hf
        cases hf
  | Path p => cases hf

theorem appTargets_count_self (nm : String) (a : String) :
    ∀ deps : List Dependency,
    (appTargets nm deps a).count nm = deps.count (Dependency.App a) := by
  intro deps
  induction deps with
  | nil => rfl
  | cons dep rest ih =>
      unfold appTargets at *
      rw [List.filterMap_cons, List.count_cons]
      cases dep with
      | App d =>
          by_cases hd : d = a
          · subst hd
            simp only [if_pos rfl, List.count_cons, beq_self_eq_true,
              if_true, ih]
          · simp only [if_neg hd, ih]
            have : (Dependency.App d == Dependency.App a) = false := by
              simp [hd]
            rw [this, ite_cond_false]
            omega
      | Path p =>
          simp only [ih]
          have : (Dependency.Path p == Dependency.App a) = false := by simp
          rw [this, ite_cond_false]
          omega

theorem appTargets_count_ne {nm m : String} (hne : m ≠ nm) (a : String)
    (deps : List Dependency) : (appTargets nm deps a).count m = 0 := by
  rw [List.count_eq_zero]
  intro hmem
  exact hne (appTargets_mem hmem)

theorem allTargets_subset_keys {apps : AppMap} {a m : String}
    (h : m ∈ allTargets apps a) : m ∈ apps.map Prod.fst := by
  unfold allTargets at h
  obtain ⟨p, hp, hm⟩ := List.mem_flatMap.mp h
  rw [appTargets_mem hm]
  exact List.mem_map_of_mem Prod.fst hp

theorem count_allTargets {apps : AppMap} (hnd : (apps.map Prod.fst).Nodup)
    (a : String) :
    ∀ {n app}, (n, app) ∈ apps →
    (allTargets apps a).count n = app.dependencies.count (Dependency.App a) := by
  induction apps with
  | nil => intro n app h; cases h
  | cons q rest ih =>
      intro n app h
      rw [List.map_cons, List.nodup_cons] at hnd
      unfold allTargets at *
      rw [List.flatMap_cons, List.count_append]
      rcases List.mem_cons.mp h with hEq | hEq
      · subst hEq
        simp only
        rw [appTargets_count_self]
        have hz : (rest.flatMap fun p =>
            appTargets p.1 p.2.dependencies a).count n = 0 := by
          rw [List.count_eq_zero]
          intro hmem
          obtain ⟨p, hp, hm⟩ := List.mem_flatMap.mp hmem
          have h1 : n = p.1 := appTargets_mem hm
          have h2 : n ∈ List.map Prod.fst rest := by
            rw [h1]
            exact List.mem_map_of_mem Prod.fst hp
          exact hnd.1 h2
        rw [hz]
        omega
      · have hn : n ∈ rest.map Prod.fst :=
          List.mem_map_of_mem Prod.fst hEq
        have hne : n ≠ q.1 := by
          intro hq
          exact hnd.1 (hq ▸ hn)
        rw [appTargets_count_ne hne, ih hnd.2 hEq]
        omega

theorem count_allTargets_zero {apps : AppMap} {n : String}
    (h : n ∉ apps.map Prod.fst) (a : String) :
    (allTargets apps a).count n = 0 := by
  rw [List.count_eq_zero]
  intro hmem
  exact h (allTargets_subset_keys hmem)

theorem mem_allTargets_of_count {apps : AppMap} {n a : String}
    (h : 0 < (allTargets apps a).count n) : n ∈ allTargets apps a :=
  List.count_pos_iff.mp h

theorem degList_eq_mapOf {apps : AppMap} (hnd : (apps.map Prod.fst).Nodup) :
    degList apps = mapOf apps (remDegF apps []) := by
  unfold degList mapOf
  apply List.map_congr_left
  intro p hp
  have : depsOf apps p.1 = p.2.dependencies := by
    obtain ⟨p1, p2⟩ := p
    exact depsOf_eq hnd hp
  rw [Prod.mk.injEq]
  refine ⟨rfl, ?_⟩
  unfold remDegF
  rw [this, remDeg_nil]

theorem decOne_mapOf {apps : AppMap} (hnd : (apps.map Prod.fst).Nodup)
    (v : String → Int) :
    ∀ {n : String}, n ∈ apps.map Prod.fst →
    decOne (mapOf apps v) n =
      (mapOf apps (fun x => if x = n then v x - 1 else v x),
        decide (v n - 1 = 0)) := by
  induction apps with
  | nil => intro n h; cases h
  | cons q rest ih =>
      intro n h
      rw [List.map_cons, List.nodup_cons] at hnd
      unfold mapOf at *
      rw [List.map_cons]
      unfold decOne
      by_cases hq : q.1 = n
      · rw [if_pos hq]
        rw [Prod.mk.injEq]
        constructor
        · simp only [List.map_cons]
          rw [if_pos hq]
          refine congrArg (List.cons _) ?_
          apply List.map_congr_left
          intro p hp
          have hpn : p.1 ≠ n := by
            intro hpq
            exact hnd.1 (hq ▸ hpq ▸ List.mem_map_of_mem Prod.fst hp)
          rw [if_neg hpn]
        · rw [hq]
      · rw [if_neg hq]
        rcases List.mem_cons.mp h with hEq | hEq
        · exact absurd hEq.symm hq
        · rw [ih hnd.2 hEq]
          rw [Prod.mk.injEq]
          refine ⟨?_, rfl⟩
          simp only [List.map_cons]
          rw [if_neg fun hx => hq (hx.symm.symm)]

theorem mapOf_congr {apps : AppMap} {v w : String → Int}
    (h : ∀ x, v x = w x) : mapOf apps v = mapOf apps w := by
  unfold mapOf
  apply List.map_congr_left
  intro p _
  rw [h p.1]

theorem stepNeighbors_mapOf {apps : AppMap}
    (hnd : (apps.map Prod.fst).Nodup) :
    ∀ (ns : List String) (v : String → Int),
    (∀ n ∈ ns, n ∈ apps.map Prod.fst) →
    (∀ n ∈ ns, (ns.count n : Int) ≤ v n) →
    (stepNeighbors (mapOf apps v) ns).1 =
        mapOf apps (fun x => v x - (ns.count x : Int)) ∧
      (∀ m, m ∈ (stepNeighbors (mapOf apps v) ns).2 ↔
        (m ∈ ns ∧ v m = (ns.count m : Int))) ∧
      (stepNeighbors (mapOf apps v) ns).2.Nodup := by
  intro ns
  induction ns with
  | nil =>
      intro v _ _
      refine ⟨?_, ?_, ?_⟩
      · unfold stepNeighbors
        apply mapOf_congr
        intro x
        simp
      · intro m
        unfold stepNeighbors
        simp
      · unfold stepNeighbors
        simp
  | cons n ns ih =>
      intro v hk hc
      have hkn : n ∈ apps.map Prod.fst := hk n (by simp)
      have hdec := decOne_mapOf hnd v hkn
      have hk' : ∀ m ∈ ns, m ∈ apps.map Prod.fst :=
        fun m hm => hk m (by simp [hm])
      have hcn := hc n (by simp)
      rw [List.count_cons, beq_self_eq_true, ite_cond_true] at hcn
      have hc' : ∀ m ∈ ns,
          (ns.count m : Int) ≤ (fun x => if x = n then v x - 1 else v x) m := by
        intro m hm
        by_cases hmn : m = n
        · subst hmn
          simp only [if_pos rfl, if_true]
          omega
        · simp only [if_neg hmn]
          have := hc m (by simp [hm])
          rw [List.count_cons] at this
          have hbe : (n == m) = false := by rw [beq_eq_false_iff_ne]; exact Ne.symm hmn
          rw [hbe, ite_cond_false] at this
          exact this
      obtain ⟨ih1, ih2, ih3⟩ := ih (fun x => if x = n then v x - 1 else v x)
        hk' hc'
      have hunf : stepNeighbors (mapOf apps v) (n :: ns) =
          ((stepNeighbors (decOne (mapOf apps v) n).1 ns).1,
            if (decOne (mapOf apps v) n).2 then
              n :: (stepNeighbors (decOne (mapOf apps v) n).1 ns).2
            else (stepNeighbors (decOne (mapOf apps v) n).1 ns).2) := rfl
      have hfst : (decOne (mapOf apps v) n).1 =
          mapOf apps (fun x => if x = n then v x - 1 else v x) := by
        rw [hdec]
      have hsnd : (decOne (mapOf apps v) n).2 = decide (v n - 1 = 0) := by
        rw [hdec]
      refine ⟨?_, ?_, ?_⟩
      · rw [hunf]
        simp only
        rw [hfst, ih1]
        apply mapOf_congr
        intro x
        by_cases hx : x = n
        · subst hx
          rw [List.count_cons, beq_self_eq_true, ite_cond_true]
          simp only [if_pos rfl, if_true]
          push_cast
          ring
        · have hbe : (n == x) = false := by rw [beq_eq_false_iff_ne]; exact Ne.symm hx
          rw [List.count_cons, hbe, ite_cond_false]
          simp only [if_neg hx]
          push_cast
          ring
      · intro m
        rw [hunf]
        simp only
        rw [hfst, hsnd]
        by_cases hz : v n - 1 = 0
        · have hnn : n ∉ ns := by
            by_contra hmem
            have h1 := hc' n hmem
            simp only [if_pos rfl, if_true] at h1
            have h2 : (1 : Int) ≤ (ns.count n : Int) :=
              Int.toNat_le.mp (by
                have := List.count_pos_iff.mpr hmem
                omega)
            omega
          rw [if_pos (by rw [decide_eq_true_eq]; exact hz)]
          rw [List.mem_cons]
          constructor
          · intro hmem
            rcases hmem with hEq | hmem
            · subst hEq
              refine ⟨by simp, ?_⟩
              rw [List.count_cons, beq_self_eq_true, ite_cond_true]
              have h0 : ns.count m = 0 := List.count_eq_zero.mpr hnn
              rw [h0]
              omega
            · have := (ih2 m).mp hmem
              obtain ⟨hm1, hm2⟩ := this
              have hmn : m ≠ n := fun hEq => hnn (hEq ▸ hm1)
              refine ⟨by simp [hm1], ?_⟩
              have hbe : (n == m) = false := by rw [beq_eq_false_iff_ne]; exact Ne.symm hmn
              rw [List.count_cons, hbe, ite_cond_false]
              simp only [if_neg hmn] at hm2
              omega
          · intro ⟨hm1, hm2⟩
            by_cases hmn : m = n
            · exact Or.inl hmn
            · refine Or.inr ((ih2 m).mpr ⟨?_, ?_⟩)
              · rcases List.mem_cons.mp hm1 with hEq | hmem
                · exact absurd hEq hmn
                · exact hmem
              · have hbe : (n == m) = false := by rw [beq_eq_false_iff_ne]; exact Ne.symm hmn
                rw [List.count_cons, hbe, ite_cond_false] at hm2
                simp only [if_neg hmn]
                omega
        · rw [if_neg (by rw [decide_eq_true_eq]; exact hz)]
          rw [ih2 m]
          by_cases hmn : m = n
          · subst hmn
            constructor
            · intro ⟨hm1, hm2⟩
              simp only [if_pos rfl, if_true] at hm2
              refine ⟨by simp, ?_⟩
              rw [List.count_cons, beq_self_eq_true, ite_cond_true]
              omega
            · intro ⟨hm1, hm2⟩
              rw [List.count_cons, beq_self_eq_true, ite_cond_true] at hm2
              have hmem : m ∈ ns := by
                by_contra hmem
                have h0 : ns.count m = 0 := List.count_eq_zero.mpr hmem
                rw [h0] at hm2
                omega
              refine ⟨hmem, ?_⟩
              simp only [if_pos rfl, if_true]
              omega
          · have hbe : (n == m) = false := by rw [beq_eq_false_iff_ne]; exact Ne.symm hmn
            constructor
            · intro ⟨hm1, hm2⟩
              simp only [if_neg hmn] at hm2
              refine ⟨by simp [hm1], ?_⟩
              rw [List.count_cons, hbe, ite_cond_false]
              omega
            · intro ⟨hm1, hm2⟩
              rw [List.count_cons, hbe, ite_cond_false] at hm2
              refine ⟨?_, ?_⟩
              · rcases List.mem_cons.mp hm1 with hEq | hmem
                · exact absurd hEq hmn
                · exact hmem
              · simp only [if_neg hmn]
                omega
      · rw [hunf]
        simp only
        rw [hfst, hsnd]
        by_cases hz : v n - 1 = 0
        · rw [if_pos (by rw [decide_eq_true_eq]; exact hz)]
          rw [List.nodup_cons]
          refine ⟨?_, ih3⟩
          intro hmem
          have := (ih2 n).mp hmem
          obtain ⟨hm1, hm2⟩ := this
          have h1 := hc' n hm1
          simp only [if_pos rfl, if_true] at h1 hm2
          have h2 : 0 < ns.count n := List.count_pos_iff.mpr hm1
          omega
        · rw [if_neg (by rw [decide_eq_true_eq]; exact hz)]
          exact ih3

/-- Dependency-first ordering of a name list through `depsOf`: every
entry's `AppRef` dependencies occur strictly before it. -/
def OrderedK (apps : AppMap) (l : List String) : Prop :=
  ∀ p x s, l = p ++ x :: s → ∀ b, Dependency.App b ∈ depsOf apps x → b ∈ p

theorem orderedK_nil (apps : AppMap) : OrderedK apps [] := by
  intro p x s h
  cases p <;> cases h

theorem orderedK_append {apps : AppMap} {l : List String} {a : String}
    (hl : OrderedK apps l)
    (ha : ∀ b, Dependency.App b ∈ depsOf apps a → b ∈ l) :
    OrderedK apps (l ++ [a]) := by
  intro p x s hdec b hdep
  rcases append_singleton_decomp hdec with ⟨hp, hx, _⟩ | ⟨s', _, hl'⟩
  · subst hp
    subst hx
    exact ha b hdep
  · exact hl p x s' hl' b hdep

theorem orderedK_before {apps : AppMap} {F : List String}
    (hord : OrderedK apps F) :
    ∀ {x y : String},
      Relation.TransGen (fun u w => Dependency.App w ∈ depsOf apps u) x y →
      ∀ p s, F = p ++ x :: s → y ∈ p := by
  intro x y h
  induction h with
  | single hstep =>
      intro p s hF
      exact hord p _ s hF _ hstep
  | tail _ hstep ih =>
      rename_i b c _
      intro p s hF
      have hb : b ∈ p := ih p s hF
      obtain ⟨u, w, hu⟩ := List.append_of_mem hb
      have hF' : F = u ++ b :: (w ++ x :: s) := by
        rw [hF, hu]
        simp
      have hc : c ∈ u := hord u b (w ++ x :: s) hF' c hstep
      rw [hu]
      exact List.mem_append.mpr (Or.inl hc)

theorem orderedK_no_cycle {apps : AppMap} {F : List String}
    (hord : OrderedK apps F) (hnd : F.Nodup) {x : String}
    (hcyc : Relation.TransGen
      (fun u w => Dependency.App w ∈ depsOf apps u) x x) :
    x ∉ F := by
  intro hmem
  obtain ⟨p, s, hdec⟩ := List.append_of_mem hmem
  have hx : x ∈ p := orderedK_before hord hcyc p s hdec
  rw [hdec] at hnd
  rcases List.nodup_append.mp hnd with ⟨_, _, hdisj⟩
  exact hdisj hx (by simp)

theorem kahnLoop_nil (graph : String → List String)
    (deg : List (String × Int)) : kahnLoop graph [] deg = [] := by
  rw [kahnLoop]

theorem kahnLoop_cons (graph : String → List String) (a : String)
    (queue : List String) (deg : List (String × Int)) :
    kahnLoop graph (a :: queue) deg =
      a :: kahnLoop graph (queue ++ (stepNeighbors deg (graph a)).2)
        (stepNeighbors deg (graph a)).1 := by
  rw [kahnLoop]

theorem count_allTargets_depsOf {apps : AppMap}
    (hnd : (apps.map Prod.fst).Nodup) (x a : String) :
    (allTargets apps a).count x = (depsOf apps x).count (Dependency.App a) := by
  by_cases hx : x ∈ apps.map Prod.fst
  · obtain ⟨app, hl, hm⟩ := mem_keys_exists hx
    rw [count_allTargets hnd a hm]
    unfold depsOf
    rw [hl]
  · rw [count_allTargets_zero hx]
    unfold depsOf
    rw [lookupApp_none hx]
    rfl

theorem remDegF_nonneg (apps : AppMap) (P : List String) (x : String) :
    0 ≤ remDegF apps P x := Int.natCast_nonneg _

theorem remDegF_snoc {apps : AppMap} (hnd : (apps.map Prod.fst).Nodup)
    {P : List String} {a : String} (ha : a ∉ P) (x : String) :
    remDegF apps P x = remDegF apps (P ++ [a]) x
      + (((allTargets apps a).count x : Nat) : Int) := by
  unfold remDegF
  rw [count_allTargets_depsOf hnd x a, remDeg_snoc ha (depsOf apps x)]
  push_cast
  ring

theorem remDegF_zero_iff {apps : AppMap} {P : List String} {x : String} :
    remDegF apps P x = 0 ↔
      ∀ b, Dependency.App b ∈ depsOf apps x → b ∈ P := by
  unfold remDegF
  rw [Int.natCast_eq_zero]
  exact remDeg_eq_zero_iff

/-- The loop invariant of Kahn's algorithm, relating the processed
prefix `P` and the queue `Q`: both are duplicate-free key lists, the
pending in-degree of a key is zero exactly when it is processed or
queued, and the processed prefix is dependency-first ordered. -/
def kahnInv (apps : AppMap) (P Q : List String) : Prop :=
  P.Nodup ∧ Q.Nodup ∧
  (∀ x ∈ P, x ∈ apps.map Prod.fst) ∧
  (∀ x ∈ Q, x ∈ apps.map Prod.fst) ∧
  (∀ x ∈ Q, x ∉ P) ∧
  (∀ x ∈ apps.map Prod.fst, (remDegF apps P x = 0 ↔ (x ∈ P ∨ x ∈ Q))) ∧
  OrderedK apps P

theorem kahn_base {apps : AppMap} (hA : appRefsValid apps)
    {P : List String} (hinv : kahnInv apps P []) :
    P.Nodup ∧ (∀ x ∈ P, x ∈ apps.map Prod.fst) ∧ OrderedK apps P ∧
    (∀ x ∈ apps.map Prod.fst, x ∉ P →
      ∃ b, Dependency.App b ∈ depsOf apps x ∧ b ∈ apps.map Prod.fst ∧
        b ∉ P) := by
  obtain ⟨hPnd, _, hPk, _, _, hzero, hPord⟩ := hinv
  refine ⟨hPnd, hPk, hPord, ?_⟩
  intro x hxk hxP
  have hnz : ¬ remDegF apps P x = 0 := by
    intro h0
    rcases (hzero x hxk).mp h0 with h | h
    · exact hxP h
    · cases h
  have : ¬ ∀ b, Dependency.App b ∈ depsOf apps x → b ∈ P := by
    intro hall
    exact hnz (remDegF_zero_iff.mpr hall)
  push_neg at this
  obtain ⟨b, hb1, hb2⟩ := this
  refine ⟨b, hb1, ?_, hb2⟩
  obtain ⟨app, hl, hm⟩ := mem_keys_exists hxk
  have hd : Dependency.App b ∈ app.dependencies := by
    unfold depsOf at hb1
    rw [hl] at hb1
    exact hb1
  have hv := hA (x, app) hm (Dependency.App b) hd
  exact containsApp_iff.mp hv

theorem kahn_master {apps : AppMap} (hnd : (apps.map Prod.fst).Nodup)
    (hA : appRefsValid apps) :
    ∀ N : Nat, ∀ Q P : List String,
    Q.length + degMass (mapOf apps (remDegF apps P)) ≤ N →
    kahnInv apps P Q →
    (P ++ kahnLoop (fun x => allTargets apps x) Q
        (mapOf apps (remDegF apps P))).Nodup ∧
    (∀ x ∈ P ++ kahnLoop (fun x => allTargets apps x) Q
        (mapOf apps (remDegF apps P)), x ∈ apps.map Prod.fst) ∧
    OrderedK apps (P ++ kahnLoop (fun x => allTargets apps x) Q
        (mapOf apps (remDegF apps P))) ∧
    (∀ x ∈ apps.map Prod.fst,
      x ∉ P ++ kahnLoop (fun x => allTargets apps x) Q
        (mapOf apps (remDegF apps P)) →
      ∃ b, Dependency.App b ∈ depsOf apps x ∧ b ∈ apps.map Prod.fst ∧
        b ∉ P ++ kahnLoop (fun x => allTargets apps x) Q
          (mapOf apps (remDegF apps P))) := by
  intro N
  induction N with
  | zero =>
      intro Q P hm hinv
      have hQ : Q = [] := by
        cases Q with
        | nil => rfl
        | cons a q => simp at hm
      subst hQ
      rw [kahnLoop_nil, List.append_nil]
      exact kahn_base hA hinv
  | succ N ih =>
      intro Q P hm hinv
      cases Q with
      | nil =>
          rw [kahnLoop_nil, List.append_nil]
          exact kahn_base hA hinv
      | cons a Q' =>
          obtain ⟨hPnd, hQnd, hPk, hQk, hQP, hzero, hPord⟩ := hinv
          have haK : a ∈ apps.map Prod.fst := hQk a (by simp)
          have haP : a ∉ P := hQP a (by simp)
          have haz : remDegF apps P a = 0 :=
            (hzero a haK).mpr (Or.inr (by simp))
          rw [List.nodup_cons] at hQnd
          have hchar := stepNeighbors_mapOf hnd (allTargets apps a)
            (remDegF apps P)
            (fun n hn => allTargets_subset_keys hn)
            (by
              intro n hn
              have hnk := allTargets_subset_keys hn
              have h1 := remDegF_snoc hnd haP n
              have h2 := remDegF_nonneg apps (P ++ [a]) n
              omega)
          obtain ⟨hs1, hs2, hs3⟩ := hchar
          have hfeq : ∀ x, remDegF apps P x -
              (((allTargets apps a).count x : Nat) : Int) =
              remDegF apps (P ++ [a]) x := by
            intro x
            have := remDegF_snoc hnd haP x
            omega
          have hs1' : (stepNeighbors (mapOf apps (remDegF apps P))
              (allTargets apps a)).1 =
              mapOf apps (remDegF apps (P ++ [a])) := by
            rw [hs1]
            exact mapOf_congr hfeq
          have hpushK : ∀ m ∈ (stepNeighbors (mapOf apps (remDegF apps P))
              (allTargets apps a)).2, m ∈ apps.map Prod.fst := by
            intro m hm'
            exact allTargets_subset_keys ((hs2 m).mp hm').1
          have hpushNZ : ∀ m ∈ (stepNeighbors (mapOf apps (remDegF apps P))
              (allTargets apps a)).2, ¬ remDegF apps P m = 0 := by
            intro m hm' h0
            obtain ⟨hm1, hm2⟩ := (hs2 m).mp hm'
            have : 0 < (allTargets apps a).count m :=
              List.count_pos_iff.mpr hm1
            omega
          have hinv2 : kahnInv apps (P ++ [a])
              (Q' ++ (stepNeighbors (mapOf apps (remDegF apps P))
                (allTargets apps a)).2) := by
            refine ⟨nodup_append_one hPnd haP, ?_, ?_, ?_, ?_, ?_, ?_⟩
            · refine List.Nodup.append hQnd.2 hs3 ?_
              intro x hx1 hx2
              have h0 : remDegF apps P x = 0 :=
                (hzero x (hQk x (by simp [hx1]))).mpr (Or.inr (by simp [hx1]))
              exact hpushNZ x hx2 h0
            · intro x hx
              rcases List.mem_append.mp hx with h | h
              · exact hPk x h
              · rw [List.mem_singleton] at h
                exact h ▸ haK
            · intro x hx
              rcases List.mem_append.mp hx with h | h
              · exact hQk x (by simp [h])
              · exact hpushK x h
            · intro x hx
              rw [List.mem_append, List.mem_singleton]
              rintro (h | h)
              · rcases List.mem_append.mp hx with h1 | h1
                · exact hQP x (by simp [h1]) h
                · exact hpushNZ x h1 ((hzero x (hpushK x h1)).mpr (Or.inl h))
              · subst h
                rcases List.mem_append.mp hx with h1 | h1
                · exact hQnd.1 h1
                · exact hpushNZ x h1 haz
            · intro x hxk
              have hsn := remDegF_snoc hnd haP x
              constructor
              · intro h0
                by_cases hz : remDegF apps P x = 0
                · rcases (hzero x hxk).mp hz with h | h
                  · exact Or.inl (by simp [h])
                  · rcases List.mem_cons.mp h with h | h
                    · exact Or.inl (by simp [h])
                    · exact Or.inr (by simp [h])
                · refine Or.inr (List.mem_append.mpr (Or.inr ?_))
                  rw [hs2 x]
                  have hcpos : 0 < (allTargets apps a).count x := by omega
                  exact ⟨List.count_pos_iff.mp hcpos, by omega⟩
              · intro hmem
                have hnn := remDegF_nonneg apps (P ++ [a]) x
                rcases hmem with h | h
                · rcases List.mem_append.mp h with h1 | h1
                  · have h0 : remDegF apps P x = 0 :=
                      (hzero x hxk).mpr (Or.inl h1)
                    omega
                  · rw [List.mem_singleton] at h1
                    subst h1
                    omega
                · rcases List.mem_append.mp h with h1 | h1
                  · have h0 : remDegF apps P x = 0 :=
                      (hzero x hxk).mpr (Or.inr (by simp [h1]))
                    omega
                  · obtain ⟨hm1, hm2⟩ := (hs2 x).mp h1
                    omega
            · refine orderedK_append hPord ?_
              intro b hb
              exact remDegF_zero_iff.mp haz b hb
          have hmass := stepNeighbors_mass (mapOf apps (remDegF apps P))
            (allTargets apps a)
          rw [hs1'] at hmass
          have hmeas : (Q' ++ (stepNeighbors (mapOf apps (remDegF apps P))
              (allTargets apps a)).2).length +
              degMass (mapOf apps (remDegF apps (P ++ [a]))) ≤ N := by
            rw [List.length_append]
            simp only [List.length_cons] at hm
            omega
          have hres := ih (Q' ++ (stepNeighbors (mapOf apps (remDegF apps P))
            (allTargets apps a)).2) (P ++ [a]) hmeas hinv2
          have hL : P ++ kahnLoop (fun x => allTargets apps x) (a :: Q')
              (mapOf apps (remDegF apps P)) =
              (P ++ [a]) ++ kahnLoop (fun x => allTargets apps x)
                (Q' ++ (stepNeighbors (mapOf apps (remDegF apps P))
                  (allTargets apps a)).2)
                (mapOf apps (remDegF apps (P ++ [a]))) := by
            rw [kahnLoop_cons]
            rw [← hs1']
            simp
          rw [hL]
          exact hres

theorem chain_extend {apps : AppMap} {U : String → Prop}
    (hstep : ∀ x, U x → ∃ b, Dependency.App b ∈ depsOf apps x ∧ U b) :
    ∀ k (x : String), U x →
    ∃ L : List String, L.length = k + 1 ∧
      List.Chain' (fun u w => Dependency.App w ∈ depsOf apps u) L ∧
      ∀ z ∈ L, U z := by
  intro k
  induction k with
  | zero =>
      intro x hx
      exact ⟨[x], rfl, List.chain'_singleton x, by
        intro z hz
        rw [List.mem_singleton] at hz
        exact hz ▸ hx⟩
  | succ k ihk =>
      intro x hx
      obtain ⟨L, hlen, hch, hU⟩ := ihk x hx
      have hne : L ≠ [] := by
        intro h
        rw [h] at hlen
        cases hlen
      obtain ⟨l, y, hLy⟩ := List.eq_nil_or_concat L |>.resolve_left hne
      rw [List.concat_eq_append] at hLy
      subst hLy
      obtain ⟨b, hb, hUb⟩ := hstep y (hU y (by simp))
      refine ⟨(l ++ [y]) ++ [b], by simp at hlen ⊢; omega, ?_, ?_⟩
      · rw [List.chain'_append]
        refine ⟨hch, List.chain'_singleton b, ?_⟩
        intro u hu w hw
        rw [List.getLast?_concat] at hu
        rw [List.head?_cons] at hw
        rw [Option.mem_def] at hu hw
        injection hu with hu
        injection hw with hw
        rw [← hu, ← hw]
        exact hb
      · intro z hz
        rcases List.mem_append.mp hz with h | h
        · exact hU z h
        · rw [List.mem_singleton] at h
          exact h ▸ hUb

theorem chain'_get_transGen {r : String → String → Prop} {L : List String}
    (hch : List.Chain' r L) :
    ∀ (i j : Nat) (hj : j < L.length) (hij : i < j),
    Relation.TransGen r (L.get ⟨i, by omega⟩) (L.get ⟨j, hj⟩) := by
  intro i j
  induction j with
  | zero => intro hj hij; omega
  | succ j ihj =>
      intro hj hij
      have hstep : r (L.get ⟨j, by omega⟩) (L.get ⟨j + 1, hj⟩) :=
        List.chain'_iff_get.mp hch j (by omega)
      by_cases hej : i = j
      · subst hej
        exact Relation.TransGen.single hstep
      · exact Relation.TransGen.tail (ihj (by omega) (by omega)) hstep

theorem no_escape {apps : AppMap} (_hnd : (apps.map Prod.fst).Nodup)
    {U : String → Prop}
    (hkeys : ∀ x, U x → x ∈ apps.map Prod.fst)
    (hstep : ∀ x, U x → ∃ b, Dependency.App b ∈ depsOf apps x ∧ U b)
    (hacyc : acyclicDeps apps) :
    ∀ x, ¬ U x := by
  intro x hx
  obtain ⟨L, hlen, hch, hU⟩ :=
    chain_extend hstep (apps.map Prod.fst).length x hx
  have hsub : L ⊆ apps.map Prod.fst := fun z hz => hkeys z (hU z hz)
  have hnodup : ¬ L.Nodup := by
    intro hnd'
    have := (hnd'.subperm hsub).length_le
    omega
  rw [List.nodup_iff_injective_get] at hnodup
  rw [Function.not_injective_iff] at hnodup
  obtain ⟨a, b, hab, hne⟩ := hnodup
  have hcyc : ∃ z, Relation.TransGen
      (fun u w => Dependency.App w ∈ depsOf apps u) z z := by
    rcases hne.lt_or_lt with h | h
    · refine ⟨L.get a, ?_⟩
      have := chain'_get_transGen hch a.1 b.1 b.2 h
      rw [Fin.eta, Fin.eta] at this
      rw [← hab] at this
      exact this
    · refine ⟨L.get b, ?_⟩
      have := chain'_get_transGen hch b.1 a.1 a.2 h
      rw [Fin.eta, Fin.eta] at this
      rw [hab] at this
      exact this
  obtain ⟨z, hz⟩ := hcyc
  exact hacyc z (hz.mono fun u w h => depsOf_step_dependsOn h)

theorem mem_queue0 {apps : AppMap} (v : String → Int) (x : String) :
    x ∈ (((mapOf apps v).filter fun p => p.2 = 0).map fun p => p.1) ↔
      x ∈ apps.map Prod.fst ∧ v x = 0 := by
  constructor
  · intro h
    obtain ⟨p, hp, hx⟩ := List.mem_map.mp h
    have hf := List.of_mem_filter hp
    have hm := List.mem_of_mem_filter hp
    rw [decide_eq_true_eq] at hf
    obtain ⟨q, hq, hqe⟩ := List.mem_map.mp hm
    obtain ⟨p1, p2⟩ := p
    injection hqe with e1 e2
    simp only at hf hx
    refine ⟨?_, ?_⟩
    · rw [← hx, ← e1]
      exact List.mem_map_of_mem Prod.fst hq
    · rw [← hx, ← e1, e2]
      exact hf
  · intro ⟨hk, hv⟩
    obtain ⟨q, hq, hqe⟩ := List.mem_map.mp hk
    have hmem : (q.1, v q.1) ∈ mapOf apps v := by
      unfold mapOf
      exact List.mem_map_of_mem _ hq
    have hfil : (q.1, v q.1) ∈ (mapOf apps v).filter fun p => p.2 = 0 := by
      rw [List.mem_filter]
      refine ⟨hmem, ?_⟩
      rw [decide_eq_true_eq]
      show v q.1 = 0
      rw [hqe]
      exact hv
    have := List.mem_map_of_mem (fun p => p.1) hfil
    simp only at this
    rw [hqe] at this
    exact this

theorem queue0_nodup {apps : AppMap} (hnd : (apps.map Prod.fst).Nodup)
    (v : String → Int) :
    (((mapOf apps v).filter fun p => p.2 = 0).map fun p => p.1).Nodup := by
  have h1 : List.Sublist ((mapOf apps v).filter fun p => p.2 = 0)
      (mapOf apps v) := List.filter_sublist _
  have h2 : List.Sublist
      (((mapOf apps v).filter fun p => p.2 = 0).map fun p => p.1)
      ((mapOf apps v).map fun p => p.1) := h1.map _
  have h3 : ((mapOf apps v).map fun p => p.1) = apps.map Prod.fst := by
    unfold mapOf
    rw [List.map_map]
    rfl
  rw [h3] at h2
  exact hnd.sublist h2

theorem kahn_conclusions {apps : AppMap} (hnd : (apps.map Prod.fst).Nodup)
    {o : List String} (hOnd : o.Nodup)
    (hOk : ∀ x ∈ o, x ∈ apps.map Prod.fst) (hOord : OrderedK apps o)
    (hOcomp : ∀ x ∈ apps.map Prod.fst, x ∉ o →
      ∃ b, Dependency.App b ∈ depsOf apps x ∧ b ∈ apps.map Prod.fst ∧
        b ∉ o) :
    (acyclicDeps apps → o.length = apps.length ∧
      ∀ a b, dependsOn apps a b → ∃ p s, o = p ++ a :: s ∧ b ∈ p) ∧
    (¬ acyclicDeps apps → o.length ≠ apps.length) := by
  constructor
  · intro hacyc
    have hall : ∀ x ∈ apps.map Prod.fst, x ∈ o := by
      intro x hxk
      by_contra hxo
      refine @no_escape apps hnd (fun z => z ∈ apps.map Prod.fst ∧ z ∉ o)
        (fun z hz => hz.1) ?_ hacyc x ⟨hxk, hxo⟩
      intro z hz
      obtain ⟨b, h1, h2, h3⟩ := hOcomp z hz.1 hz.2
      exact ⟨b, h1, h2, h3⟩
    have hlen : o.length = apps.length := by
      have h1 := (hOnd.subperm fun x hx => hOk x hx).length_le
      have h2 := (hnd.subperm fun x hx => hall x hx).length_le
      have h3 : (apps.map Prod.fst).length = apps.length := List.length_map _ _
      omega
    refine ⟨hlen, ?_⟩
    intro a b hdep
    have hstep : Dependency.App b ∈ depsOf apps a := (dependsOn_iff hnd).mp hdep
    have haK : a ∈ apps.map Prod.fst := by
      obtain ⟨app, hm, _⟩ := hdep
      exact List.mem_map_of_mem Prod.fst hm
    obtain ⟨p, s, hdec⟩ := List.append_of_mem (hall a haK)
    exact ⟨p, s, hdec, hOord p a s hdec b hstep⟩
  · intro hcyc
    unfold acyclicDeps at hcyc
    push_neg at hcyc
    obtain ⟨n, hn⟩ := hcyc
    have htg : Relation.TransGen
        (fun u w => Dependency.App w ∈ depsOf apps u) n n :=
      hn.mono fun u w h => (dependsOn_iff hnd).mp h
    have hnK : n ∈ apps.map Prod.fst := by
      obtain ⟨c, h, _⟩ := Relation.TransGen.head'_iff.mp hn
      obtain ⟨app, hm, _⟩ := h
      exact List.mem_map_of_mem Prod.fst hm
    have hno : n ∉ o := orderedK_no_cycle hOord hOnd htg
    have hsub : o ⊆ (apps.map Prod.fst).erase n := by
      intro x hx
      have hxK := hOk x hx
      have hxn : x ≠ n := fun hEq => hno (hEq ▸ hx)
      exact (List.mem_erase_of_ne hxn).mpr hxK
    have h1 := (hOnd.subperm hsub).length_le
    have h2 : ((apps.map Prod.fst).erase n).length =
        (apps.map Prod.fst).length - 1 := List.length_erase_of_mem hnK
    have h3 : 0 < (apps.map Prod.fst).length := List.length_pos.mpr
      (fun hEq => by rw [hEq] at hnK; cases hnK)
    have h4 : (apps.map Prod.fst).length = apps.length := List.length_map _ _
    omega

/-- C1: under distinct keys, valid `AppRef` targets and existing
`PathRef` targets, `topological_sort` of an acyclic mapping returns an
order containing every application exactly once (its length is the
number of applications) in which every `AppRef` dependency precedes its
dependent; and on a mapping whose `AppRef` relation has a cycle it
fails with `CircularDependency`. -/
theorem claim_C1 (fs : FS) (apps : AppMap)
    (hnd : (apps.map Prod.fst).Nodup)
    (hA : appRefsValid apps) (hPv : pathRefsValid fs apps) :
    (acyclicDeps apps →
      ∃ order, topological_sort fs apps = .ok order ∧
        order.length = apps.length ∧
        ∀ a b, dependsOn apps a b →
          ∃ p s, order = p ++ a :: s ∧ b ∈ p) ∧
    (¬ acyclicDeps apps →
      topological_sort fs apps = .error .CircularDependency) := by
  have hbg : buildGraph fs apps apps (fun _ => []) [] =
      .ok (fun x => allTargets apps x, mapOf apps (remDegF apps [])) := by
    rw [buildGraph_ok fs apps apps (fun _ => []) [] hA hPv,
      degList_eq_mapOf hnd]
    rfl
  have htopo : topological_sort fs apps =
      (if (kahnLoop (fun x => allTargets apps x)
            (((mapOf apps (remDegF apps [])).filter fun p => p.2 = 0).map
              fun p => p.1)
            (mapOf apps (remDegF apps []))).length ≠ apps.length
        then .error .CircularDependency
        else .ok (kahnLoop (fun x => allTargets apps x)
            (((mapOf apps (remDegF apps [])).filter fun p => p.2 = 0).map
              fun p => p.1)
            (mapOf apps (remDegF apps [])))) := by
    unfold topological_sort
    rw [hbg]
  have hinv0 : kahnInv apps []
      (((mapOf apps (remDegF apps [])).filter fun p => p.2 = 0).map
        fun p => p.1) := by
    refine ⟨List.nodup_nil, queue0_nodup hnd _, ?_, ?_, ?_, ?_,
      orderedK_nil apps⟩
    · intro x hx
      cases hx
    · intro x hx
      exact ((mem_queue0 _ x).mp hx).1
    · intro x _ hx
      cases hx
    · intro x hxk
      rw [mem_queue0]
      constructor
      · intro h0
        exact Or.inr ⟨hxk, h0⟩
      · rintro (h | ⟨_, h0⟩)
        · cases h
        · exact h0
  have hres := kahn_master hnd hA
    ((((mapOf apps (remDegF apps [])).filter fun p => p.2 = 0).map
        fun p => p.1).length + degMass (mapOf apps (remDegF apps [])))
    (((mapOf apps (remDegF apps [])).filter fun p => p.2 = 0).map
        fun p => p.1) [] (le_refl _) hinv0
  rw [List.nil_append] at hres
  obtain ⟨hOnd, hOk, hOord, hOcomp⟩ := hres
  have hconc := kahn_conclusions hnd hOnd hOk hOord hOcomp
  constructor
  · intro hacyc
    obtain ⟨hlen, hord⟩ := hconc.1 hacyc
    refine ⟨_, ?_, hlen, hord⟩
    rw [htopo, if_neg (not_not_intro hlen)]
  · intro hcyc
    have hne := hconc.2 hcyc
    rw [htopo, if_pos hne]

/-- C1, witnessed on the two-application mapping: the returned order
has length 2 and lists `"A"` before its dependent `"B"`. -/
theorem claim_C1_witness :
    ∃ order, topological_sort emptyFS appsAB = .ok order ∧
      order.length = appsAB.length ∧
      ∀ a b, dependsOn appsAB a b →
        ∃ p s, order = p ++ a :: s ∧ b ∈ p :=
  (claim_C1 emptyFS appsAB (by decide) (by decide) (by decide)).1
    appsAB_acyclic

end Yeth

